import Mathlib

/-!
Verification of the structtools binary-codec library.

This file is a shallow embedding of `structsup.py` (the struct-format size
calculator) and `container.py` (the container/codec hierarchy), together with
theorems that settle the specified properties against the embedded code.

Modelling conventions:
* Python `bytes` values are `List Nat`, one entry per byte.
* Python `str` values are lists of unicode code points (`List Nat`); the
  default `utf-8` text codec is modelled explicitly.
* Python `int` values are `Int`; sizes reported inside results are `Int`
  because decoded length fields can be negative when a signed size codec is
  used on adversarial input.
* Raised exceptions are modelled with `Except Err`.
* Python sequence values (`list` and `tuple`) are both modelled as
  `Value.seq`: the specification compares decoded values by structural
  equality, which does not distinguish the two sequence kinds.
-/

namespace Structtools

/-- Error kinds raised by the source: the exception classes of `container.py`
plus `struct.error` and the unicode codec errors of the standard library.
`invalidStructFormat` mirrors the `InvalidStructFormatError` class, which is
defined in `container.py` but never raised anywhere in the source.
`diverges` marks calls on which the source loops forever (see `walkOpen`). -/
inductive Err where
  | invalidParamSize
  | notStopped
  | structError
  | unicodeError
  | initTypeError
  | initValueError
  | initPosArgMissing
  | invalidStructFormat
  | attributeError
  | containerError
  | diverges
  deriving DecidableEq

/-- Byte-order/alignment marker characters (`structsup.FIRSTS`). -/
def FIRSTS : List Char := ['@', '=', '<', '>', '!']

/-- Type characters whose count prefix scales a single field
(`structsup.LENGTHED_TYPECHARS`). -/
def LENGTHED_TYPECHARS : List Char := ['x', 's', 'p']

/-- Size of a one-field format `struct.Struct(first + typechar)` as computed
by the CPython `struct` module on a 64-bit platform; `none` when the format
is invalid (`struct.error`).  `first = none` is native mode (no marker).
A marker character in typechar position is only legal when no marker
precedes it, in which case the struct is empty with size `0`. -/
def structUnitSize (first : Option Char) (tc : Char) : Option Nat :=
  let native : Bool :=
    match first with
    | none => true
    | some c => c = '@'
  if tc ∈ FIRSTS then (if first = none then some 0 else none) else
  match tc with
  | 'x' => some 1
  | 'c' => some 1
  | 'b' => some 1
  | 'B' => some 1
  | '?' => some 1
  | 'h' => some 2
  | 'H' => some 2
  | 'i' => some 4
  | 'I' => some 4
  | 'l' => if native then some 8 else some 4
  | 'L' => if native then some 8 else some 4
  | 'q' => some 8
  | 'Q' => some 8
  | 'n' => if native then some 8 else none
  | 'N' => if native then some 8 else none
  | 'e' => some 2
  | 'f' => some 4
  | 'd' => some 8
  | 's' => some 1
  | 'p' => some 1
  | 'P' => if native then some 8 else none
  | _ => none

/-- Size of `struct.Struct(first + str(n) + typechar)`: the count scales the
unit width.  `iterinst` only builds counted one-field formats for lengthed
type characters or a zero count, and for those the struct size is
`n * unit`.  A count before a marker character is a `struct.error`
(repeat count without format specifier). -/
def structCountedSize (first : Option Char) (n : Nat) (tc : Char) : Option Nat :=
  if tc ∈ FIRSTS then none else (structUnitSize first tc).map (n * ·)

/-- Length of the leading run of decimal digits, mirroring the
`remain[:i+1].isdecimal()` scan of `iterinst` (ASCII decimals). -/
def digitRunLen : List Char → Nat
  | [] => 0
  | c :: cs => if c.isDigit then digitRunLen cs + 1 else 0

/-- Numeric value of a decimal digit string (Python `int`). -/
def parseDec (ds : List Char) : Nat :=
  ds.foldl (fun a c => a * 10 + (c.toNat - 48)) 0

/-- One fuelled pass of `structsup.iterinst`, yielding the struct sizes that
`structsup.sizes` collects.  The fuel starts at the format length; every step
consumes at least one character, so the fuel-exhausted branch is unreachable.
The `if i > 0` branch of the source (commented `# this will raise an error`)
is dead code: `i` is always `0` when a marker character is tested, so a
marker at any later position is silently recorded as the new active mode. -/
def iterinstGo : Nat → Option Char → List Char → Except Err (List Nat)
  | _, _, [] => .ok []
  | 0, _, _ :: _ => .error .structError
  | fuel + 1, first, c :: rest =>
    if c ∈ FIRSTS then
      iterinstGo fuel (some c) rest
    else if c = ' ' then
      iterinstGo fuel first rest
    else
      let remain := c :: rest
      let i := min (digitRunLen remain) (remain.length - 1)
      let n := if 0 < i then parseDec (remain.take i) else 1
      let tc := remain.getD i ' '
      if n = 0 ∨ tc ∈ LENGTHED_TYPECHARS then
        match structCountedSize first n tc with
        | some sz => (iterinstGo fuel first (remain.drop (i + 1))).map (sz :: ·)
        | none => .error .structError
      else
        match structUnitSize first tc with
        | some sz =>
            (iterinstGo fuel first (remain.drop (i + 1))).map
              (fun l => List.replicate n sz ++ l)
        | none => .error .structError

/-- The field-size sequence of a format string (`structsup.sizes`). -/
def pySizes (fmt : List Char) : Except Err (List Nat) :=
  iterinstGo fmt.length none fmt

/-- Constructed state of a `FixedSizeStructBasedContainer`. -/
structure FSBCData where
  fmt : List Char
  fmtFirst : Char
  subsize : List Nat
  datasize : Nat
  deriving DecidableEq

/-- Constructor `FixedSizeStructBasedContainer.__init__`.  The source tests
`fmt_first not in self._valid_fmt_first` but only binds the error arguments
and never raises them (the `raise` statement is missing), so every marker is
accepted; the only construction failure comes from `structsup.sizes` on the
combined format string. -/
def fsbcInit (fmt : List Char) (fmtFirst : Option Char) : Except Err FSBCData :=
  let ff := fmtFirst.getD '<'
  match pySizes (ff :: fmt) with
  | .ok ss => .ok ⟨fmt, ff, ss, ss.sum⟩
  | .error e => .error e

/-- Python values handled by the codecs: integers, strings (as code-point
lists), sequences (`list`/`tuple` collapsed, see the file header) and
insertion-ordered mappings (as association lists). -/
inductive Value where
  | int (i : Int)
  | str (cps : List Nat)
  | seq (vs : List Value)
  | dict (ps : List (Value × Value))

mutual

/-- Python `==` on the modelled value domain (structural equality). -/
def vbeq : Value → Value → Bool
  | .int a, .int b => a == b
  | .str a, .str b => a == b
  | .seq a, .seq b => vbeqL a b
  | .dict a, .dict b => vbeqP a b
  | _, _ => false

/-- Elementwise `==` on value lists. -/
def vbeqL : List Value → List Value → Bool
  | [], [] => true
  | a :: as', b :: bs' => vbeq a b && vbeqL as' bs'
  | _, _ => false

/-- Elementwise `==` on pair lists. -/
def vbeqP : List (Value × Value) → List (Value × Value) → Bool
  | [], [] => true
  | (ka, va) :: as', (kb, vb) :: bs' => vbeq ka kb && vbeq va vb && vbeqP as' bs'
  | _, _ => false

end

/-- Insert `(k, v)` as Python `dict.__setitem__`: replace the value of an
existing equal key in place, otherwise append. -/
def odUpsert (k v : Value) : List (Value × Value) → List (Value × Value)
  | [] => [(k, v)]
  | (k', v') :: t => if vbeq k' k then (k', v) :: t else (k', v') :: odUpsert k v t

/-- Build an `OrderedDict` from a pair sequence (duplicate keys collapse,
last value wins, first position kept). -/
def odictOfPairs (ps : List (Value × Value)) : List (Value × Value) :=
  ps.foldl (fun acc p => odUpsert p.1 p.2 acc) []

/-- Key `k` does not occur (by Python `==`) among the keys of `ps`. -/
def keyFresh (k : Value) (ps : List (Value × Value)) : Bool :=
  ps.all (fun p => !vbeq k p.1)

/-- Keys of an association list are pairwise distinct under Python `==`. -/
def nodupKeys : List (Value × Value) → Bool
  | [] => true
  | p :: t => keyFresh p.1 t && nodupKeys t

mutual

/-- Well-formed values: every mapping that occurs anywhere inside has
pairwise distinct keys (every real Python dict satisfies this). -/
def wfv : Value → Bool
  | .int _ => true
  | .str _ => true
  | .seq vs => wfvL vs
  | .dict ps => nodupKeys ps && wfvP ps

/-- Well-formedness of every element of a value list. -/
def wfvL : List Value → Bool
  | [] => true
  | v :: vs => wfv v && wfvL vs

/-- Well-formedness of every key and value of a pair list. -/
def wfvP : List (Value × Value) → Bool
  | [] => true
  | (k, v) :: ps => wfv k && wfv v && wfvP ps

end

/-- Recursive size breakdown carried in results (`Result.subsize`): a plain
integer for `Integer`, nested tuples/lists elsewhere (sequence kinds
collapsed into `node`). -/
inductive Sub where
  | i (z : Int)
  | node (ss : List Sub)

/-- The `Result` namedtuple of `container.py`. -/
structure PyResult where
  value : Value
  data : List Nat
  datasize : Int
  subsize : Sub

/-- Python slice `l[:k]` for a possibly negative `k`. -/
def pyTakeI (k : Int) (l : List Nat) : List Nat :=
  if 0 ≤ k then l.take k.toNat else l.take ((l.length : Int) + k).toNat

/-- Python slice `l[i:]` for a possibly negative `i`. -/
def pyDropI (i : Int) (l : List Nat) : List Nat :=
  if 0 ≤ i then l.drop i.toNat else l.drop ((l.length : Int) + i).toNat

/-- Python `data.endswith(suffix)`. -/
def pyEndsWith (l suffix : List Nat) : Bool :=
  suffix.isSuffixOf l

/-- Effectful map over a list, stopping at the first error (a Python list
comprehension over a fallible expression). -/
def exMapM (f : α → Except Err β) : List α → Except Err (List β)
  | [] => .ok []
  | a :: as' => do
    let b ← f a
    let bs ← exMapM f as'
    .ok (b :: bs)

/-- Little-endian byte expansion of a natural number to `k` bytes. -/
def leBytes : Nat → Nat → List Nat
  | 0, _ => []
  | k + 1, n => n % 256 :: leBytes k (n / 256)

/-- Value of a little-endian byte list. -/
def leNat : List Nat → Nat
  | [] => 0
  | b :: bs => b + 256 * leNat bs

/-- Byte orders realised by the accepted marker characters on x86-64:
`<`, `=`, `@` and no marker are little endian, `>` and `!` big endian. -/
inductive ByteOrder where
  | le
  | be
  deriving DecidableEq

/-- Byte arrangement: little endian keeps the byte list, big endian
reverses it. -/
def ByteOrder.arrange : ByteOrder → List Nat → List Nat
  | .le, bs => bs
  | .be, bs => bs.reverse

/-- Pack an integer as `struct.pack` does for the integer format characters:
range-check, two's complement, byte order.  `none` models the
`struct.error` raised on an out-of-range argument. -/
def intPack (k : Nat) (signed : Bool) (bo : ByteOrder) (v : Int) : Option (List Nat) :=
  let lo : Int := if signed then -(2 ^ (8 * k - 1)) else 0
  let hi : Int := if signed then 2 ^ (8 * k - 1) else 2 ^ (8 * k)
  if lo ≤ v ∧ v < hi then
    some (bo.arrange (leBytes k (v.emod (2 ^ (8 * k))).toNat))
  else none

/-- Unpack an integer as `struct.unpack` does: the buffer length must equal
the format size exactly, and a signed format reinterprets the top bit. -/
def intUnpack (k : Nat) (signed : Bool) (bo : ByteOrder) (bs : List Nat) : Option Int :=
  if bs.length = k then
    some (if signed ∧ 2 ^ (8 * k - 1) ≤ leNat (bo.arrange bs) then
            (leNat (bo.arrange bs) : Int) - 2 ^ (8 * k)
          else (leNat (bo.arrange bs) : Int))
  else none

/-- UTF-8 encoding of one code point, as Python `str.encode('utf-8')`:
`none` on a surrogate (Python refuses to encode lone surrogates) or an
out-of-range code point. -/
def utf8EncodeChar (n : Nat) : Option (List Nat) :=
  if n < 0x80 then some [n]
  else if n < 0x800 then some [0xC0 + n / 64, 0x80 + n % 64]
  else if n < 0xD800 then some [0xE0 + n / 4096, 0x80 + n / 64 % 64, 0x80 + n % 64]
  else if n < 0xE000 then none
  else if n < 0x10000 then some [0xE0 + n / 4096, 0x80 + n / 64 % 64, 0x80 + n % 64]
  else if n < 0x110000 then
    some [0xF0 + n / 262144, 0x80 + n / 4096 % 64, 0x80 + n / 64 % 64, 0x80 + n % 64]
  else none

/-- UTF-8 encoding of a code-point string. -/
def utf8Encode : List Nat → Option (List Nat)
  | [] => some []
  | c :: cs => do
    let b ← utf8EncodeChar c
    let bs ← utf8Encode cs
    some (b ++ bs)

/-- Continuation byte test. -/
def utf8Cont (b : Nat) : Bool :=
  0x80 ≤ b && b < 0xC0

/-- Decode one UTF-8 sequence: the code point and the remaining bytes, or
`none` on an invalid lead byte, truncated sequence, bad continuation byte,
overlong form, surrogate, or out-of-range value. -/
def utf8DecChar : List Nat → Option (Nat × List Nat)
  | [] => none
  | b0 :: t0 =>
    if b0 < 0x80 then some (b0, t0)
    else if b0 < 0xC2 then none
    else if b0 < 0xE0 then
      match t0 with
      | b1 :: t1 =>
        if utf8Cont b1 then some ((b0 - 0xC0) * 64 + (b1 - 0x80), t1) else none
      | [] => none
    else if b0 < 0xF0 then
      match t0 with
      | b1 :: b2 :: t2 =>
        if utf8Cont b1 ∧ utf8Cont b2
            ∧ 0x800 ≤ (b0 - 0xE0) * 4096 + (b1 - 0x80) * 64 + (b2 - 0x80)
            ∧ ¬(0xD800 ≤ (b0 - 0xE0) * 4096 + (b1 - 0x80) * 64 + (b2 - 0x80)
                ∧ (b0 - 0xE0) * 4096 + (b1 - 0x80) * 64 + (b2 - 0x80) < 0xE000) then
          some ((b0 - 0xE0) * 4096 + (b1 - 0x80) * 64 + (b2 - 0x80), t2)
        else none
      | _ => none
    else if b0 < 0xF5 then
      match t0 with
      | b1 :: b2 :: b3 :: t3 =>
        if utf8Cont b1 ∧ utf8Cont b2 ∧ utf8Cont b3
            ∧ 0x10000 ≤ (b0 - 0xF0) * 262144 + (b1 - 0x80) * 4096
                + (b2 - 0x80) * 64 + (b3 - 0x80)
            ∧ (b0 - 0xF0) * 262144 + (b1 - 0x80) * 4096 + (b2 - 0x80) * 64 + (b3 - 0x80)
                < 0x110000 then
          some ((b0 - 0xF0) * 262144 + (b1 - 0x80) * 4096 + (b2 - 0x80) * 64
            + (b3 - 0x80), t3)
        else none
      | _ => none
    else none

/-- Fuelled UTF-8 decoding loop.  Each step consumes at least one byte, so
fuel equal to the buffer length (see `utf8Decode`) can never run out. -/
def utf8DecodeGo : Nat → List Nat → Option (List Nat)
  | _, [] => some []
  | 0, _ :: _ => none
  | fuel + 1, b0 :: t0 =>
    match utf8DecChar (b0 :: t0) with
    | some (c, rest) => (utf8DecodeGo fuel rest).map (c :: ·)
    | none => none

/-- Strict UTF-8 decoding to code points, as Python `bytes.decode('utf-8')`:
`none` models the `UnicodeDecodeError`. -/
def utf8Decode (bs : List Nat) : Option (List Nat) :=
  utf8DecodeGo bs.length bs

/-- Marker characters accepted as `fmt_first` by the model.  Because the
missing `raise` in `FixedSizeStructBasedContainer.__init__` (see `fsbcInit`)
lets every marker through, all five `struct` markers are constructible, not
just the documented `<>=` set. -/
inductive FmtFirst where
  | lt
  | gt
  | eq
  | atSign
  | bang
  deriving DecidableEq

/-- Byte order realised by a marker on x86-64. -/
def FmtFirst.order : FmtFirst → ByteOrder
  | .gt => .be
  | .bang => .be
  | _ => .le

/-- Constructed state of an `Integer` codec: byte width, signedness and the
byte-order marker.  For these markers the struct format is a single field,
so `_subsize` is the width itself and `_datasize` equals the width. -/
structure IntC where
  size : Nat
  signed : Bool
  first : FmtFirst
  deriving DecidableEq

/-- The default size codec `Integer()`: 4 bytes, unsigned, little endian. -/
def defaultIntC : IntC :=
  ⟨4, false, .lt⟩

/-- Encoding by an `Integer` codec (`Integer.data`, via
`FixedSizeStructBasedContainer.data` and `struct.pack`). -/
def intCData (c : IntC) (v : Value) : Except Err PyResult :=
  match v with
  | .int i =>
    match intPack c.size c.signed c.first.order i with
    | some bs => .ok ⟨.int i, bs, (c.size : Int), .i c.size⟩
    | none => .error .structError
  | _ => .error .structError

/-- Decoding by an `Integer` codec (`Integer.value`): `trim_data` checks the
exact length when `is_entire`, otherwise slices the first `size` bytes; then
`struct.unpack` requires the sliced buffer to have exactly `size` bytes. -/
def intCValue (c : IntC) (bs : List Nat) (entire : Bool) : Except Err PyResult :=
  if entire then
    if bs.length ≠ c.size then .error .invalidParamSize
    else
      match intUnpack c.size c.signed c.first.order bs with
      | some n => .ok ⟨.int n, bs, (c.size : Int), .i c.size⟩
      | none => .error .structError
  else
    let d := bs.take c.size
    match intUnpack c.size c.signed c.first.order d with
    | some n => .ok ⟨.int n, d, (c.size : Int), .i c.size⟩
    | none => .error .structError

/-- The container hierarchy of `container.py` that the claims quantify over:
`Integer`, `VarSizeString`, `StoppedString`, `Array`, `VarSizeArray`, `Row`
and `StandardDictionary`.  Size codecs are `IntC` because the source
validates them with `Integer.validate`.  `row cs nGiven` records whether an
explicit `n` was passed (when passed it must equal `cs.length`). -/
inductive Cont where
  | integer (c : IntC)
  | varSizeString (sizec : IntC)
  | stoppedString (stop : List Nat)
  | array (elementc : Cont) (n : Option Nat)
  | varSizeArray (elementc : Cont) (sizec : IntC)
  | row (elementcs : List Cont) (nGiven : Bool)
  | standardDictionary (keyc valuec : Cont)

mutual

/-- Termination measure for the codec operations.  `standardDictionary`
gets extra weight because its operations delegate to a freshly built
`Array(Row(keyc, valuec))` term. -/
def w : Cont → Nat
  | .integer _ => 1
  | .varSizeString _ => 1
  | .stoppedString _ => 1
  | .array e _ => 2 + w e
  | .varSizeArray e _ => 2 + w e
  | .row cs _ => 1 + ws cs
  | .standardDictionary k v => 7 + w k + w v

/-- Measure of a codec list. -/
def ws : List Cont → Nat
  | [] => 0
  | c :: cs => 1 + w c + ws cs

end

mutual

/-- The `_datasize` attribute as left behind by the constructors:
`Integer` stores its width; `Row.__init__` stores the sum of the element
sizes whenever all elements are fixed, regardless of whether `n` was given;
`Array.__init__` would store `n * elementc.size` but that line raises
`AttributeError` (no container has a `size` attribute), so no constructed
array carries a `_datasize`; the remaining codecs never set one. -/
def datasizeAttr : Cont → Option Nat
  | .integer c => some c.size
  | .varSizeString _ => none
  | .stoppedString _ => none
  | .array _ _ => none
  | .varSizeArray _ _ => none
  | .row cs _ => dsRow cs
  | .standardDictionary _ _ => none

/-- The `Row.__init__` loop: `sum(c.datasize)` provided `all(c.fixed)`,
where `fixed` is the overridden `Row.fixed` for row elements and the base
`Container.fixed` (datasize is not None) otherwise. -/
def dsRow : List Cont → Option Nat
  | [] => some 0
  | c :: cs =>
    let fx : Bool :=
      match c with
      | .row cs' g => g && (dsRow cs').isSome
      | c' => (datasizeAttr c').isSome
    if fx then
      match datasizeAttr c, dsRow cs with
      | some a, some b => some (a + b)
      | _, _ => none
    else none

end

/-- The `fixed` property: `Row` overrides it to require an explicit `n`
in addition to a defined datasize; every other codec reports
`datasize is not None`. -/
def fixedB : Cont → Bool
  | .row cs g => g && (dsRow cs).isSome
  | c => (datasizeAttr c).isSome

/-- The `Container.trim_data` method: only fixed codecs check or slice. -/
def trimData (c : Cont) (bs : List Nat) (entire : Bool) : Except Err (List Nat) :=
  if fixedB c then
    if entire then
      if bs.length ≠ (datasizeAttr c).getD 0 then .error .invalidParamSize else .ok bs
    else .ok (bs.take ((datasizeAttr c).getD 0))
  else .ok bs

/-- Fuelled chunking: the zip-of-islices recipe used by `Array.value` and
`VarSizeArray.value` groups a buffer into consecutive `k`-byte chunks,
silently dropping a final partial chunk.  Fuel starts at the buffer length
and every step consumes `k ≥ 1` bytes, so it cannot run out. -/
def chunksOfGo : Nat → Nat → List Nat → List (List Nat)
  | 0, _, _ => []
  | fuel + 1, k, l =>
    if k = 0 ∨ l.length < k then [] else l.take k :: chunksOfGo fuel k (l.drop k)

/-- Consecutive `k`-byte chunks of a buffer. -/
def chunksOf (k : Nat) (l : List Nat) : List (List Nat) :=
  chunksOfGo l.length k l

/-- Auxiliary scan for `StoppedString.value`: try prefix lengths
`l, l+1, ...` for `steps` steps, returning the first length whose prefix
ends with the terminator. -/
def scanStop (stop data : List Nat) : Nat → Nat → Option Nat
  | _, 0 => none
  | l, steps + 1 =>
    if pyEndsWith (data.take l) stop then some l else scanStop stop data (l + 1) steps

/-- The `StoppedString.value` scan with `is_entire=False`
(`for l in range(len(data)+1)` with an `else: raise` clause): the smallest
prefix length `l` such that `data[:l]` ends with the terminator. -/
def firstStopLen (stop bs : List Nat) : Option Nat :=
  scanStop stop bs 0 (bs.length + 1)

/-- The `Array._iter_varsize_eresults` loop: starting at offset `i`, decode
elements with `is_entire=False` while `data[i:]` is nonempty, stopping once
`n` elements were produced when `n` is set.  The fuel is
`len(data) + 1 + n`: when the loop exceeds it, some element decode reported
a nonpositive size with no element bound set, and the source then revisits
the same loop state forever; that divergence is modelled as
`Err.diverges`. -/
def walkOpen (f : List Nat → Except Err PyResult) :
    Nat → List Nat → Int → Option Nat → Nat → Except Err (List PyResult)
  | 0, data, i, _, _ =>
    if pyDropI i data = [] then .ok [] else .error .diverges
  | fuel + 1, data, i, nOpt, count =>
    if pyDropI i data = [] then .ok []
    else if nOpt = some count then .ok []
    else do
      let r ← f (pyDropI i data)
      let rs ← walkOpen f fuel data (i + r.datasize) nOpt (count + 1)
      .ok (r :: rs)

/-- The `VarSizeArray._iter_varsize_eresults` loop: exactly `n` element
decodes at the running offset, then with `is_entire` a leftover check. -/
def vwalk (f : List Nat → Except Err PyResult) :
    Nat → List Nat → Int → Bool → Except Err (List PyResult)
  | 0, edata, i, entire =>
    if entire ∧ pyDropI i edata ≠ [] then .error .invalidParamSize else .ok []
  | n + 1, edata, i, entire => do
    let r ← f (pyDropI i edata)
    let rs ← vwalk f n edata (i + r.datasize) entire
    .ok (r :: rs)

/-- Conversion of a decoded pair sequence into `(key, value)` pairs, as the
`OrderedDict(...)` constructor consumes it. -/
def toPairs : List Value → Except Err (List (Value × Value))
  | [] => .ok []
  | .seq [a, b] :: vs => (toPairs vs).map ((a, b) :: ·)
  | _ :: _ => .error .initValueError

mutual

/-- Encoding: the `data` method of each codec class.

* `Integer.data` packs one machine integer.
* `VarSizeString.data` prefixes the UTF-8 bytes with their length encoded
  by the size codec; `subsize = (sizeFieldWidth, textByteCount)`.
* `StoppedString.data` appends the terminator to the UTF-8 bytes.
* `Array.data` checks the fixed count if any, encodes each element with the
  single element codec and concatenates.
* `VarSizeArray.data` prefixes the encoded element count.
* `Row.data` checks the arity and encodes positionally.
* `StandardDictionary.data` converts the mapping to a pair sequence in
  iteration order and delegates to `Array(Row(keyc, valuec)).data`; the
  reported value is the `OrderedDict` built from those pairs.

Values of the wrong Python type make the source fail with attribute or
struct errors; those are modelled with the corresponding `Err`. -/
def contData : Cont → Value → Except Err PyResult
  | .integer c, v => intCData c v
  | .varSizeString sc, v =>
    match v with
    | .str s =>
      match utf8Encode s with
      | none => .error .unicodeError
      | some enc => do
        let szr ← intCData sc (.int enc.length)
        .ok ⟨.str s, szr.data ++ enc, szr.datasize + enc.length,
             .node [.i szr.datasize, .i enc.length]⟩
    | _ => .error .attributeError
  | .stoppedString stop, v =>
    match v with
    | .str s =>
      match utf8Encode s with
      | none => .error .unicodeError
      | some enc =>
        let data := enc ++ stop
        .ok ⟨.str s, data, data.length,
             .node [.i ((data.length : Int) - stop.length), .i stop.length]⟩
    | _ => .error .attributeError
  | .array e n, v =>
    match v with
    | .seq vs =>
      let badLen : Bool :=
        match n with
        | some k => vs.length != k
        | none => false
      if badLen then .error .invalidParamSize
      else do
        let rs ← exMapM (fun v' => contData e v') vs
        let data := (rs.map (·.data)).flatten
        .ok ⟨.seq vs, data, data.length, .node (rs.map (·.subsize))⟩
    | _ => .error .initTypeError
  | .varSizeArray e sc, v =>
    match v with
    | .seq vs => do
      let szr ← intCData sc (.int vs.length)
      let rs ← exMapM (fun v' => contData e v') vs
      let data := szr.data ++ (rs.map (·.data)).flatten
      .ok ⟨.seq vs, data, data.length,
           .node [.i szr.datasize, .node (rs.map (·.subsize))]⟩
    | _ => .error .initTypeError
  | .row cs _, v =>
    match v with
    | .seq vs =>
      if vs.length ≠ cs.length then .error .invalidParamSize
      else do
        let rs ← rowDataGo cs vs
        let data := (rs.map (·.data)).flatten
        .ok ⟨.seq vs, data, data.length, .node (rs.map (·.subsize))⟩
    | _ => .error .initTypeError
  | .standardDictionary kc vc, v =>
    match v with
    | .dict ps => do
      let r ← contData (.array (.row [kc, vc] false) none)
                (.seq (ps.map (fun p => Value.seq [p.1, p.2])))
      .ok ⟨.dict (odictOfPairs ps), r.data, r.datasize, r.subsize⟩
    | _ => .error .attributeError
termination_by c _ => w c
decreasing_by all_goals simp [w, ws] <;> omega

/-- The `Row.data` element loop (lengths are checked equal by the caller). -/
def rowDataGo : List Cont → List Value → Except Err (List PyResult)
  | [], [] => .ok []
  | [], _ :: _ => .error .attributeError
  | _ :: _, [] => .error .attributeError
  | c :: cs, v :: vs => do
    let r ← contData c v
    let rs ← rowDataGo cs vs
    .ok (r :: rs)
termination_by cs _ => ws cs
decreasing_by all_goals simp [w, ws] <;> omega

end

mutual

/-- Decoding: the `value` method of each codec class.

* `Integer.value` unpacks after `trim_data`.
* `VarSizeString.value` reads the length field (never entire), computes
  `datasize`, on `is_entire` checks the exact length, otherwise slices,
  and decodes the text bytes.
* `StoppedString.value` with `is_entire` requires the terminator suffix;
  otherwise it scans prefix lengths from `0` upward and keeps the first
  prefix ending with the terminator.
* `Array.value` after a (no-op, arrays are never fixed) `trim_data` either
  splits into fixed-width chunks decoded entire, or walks elements with
  `is_entire=False`; the returned `data` is the untrimmed input.
* `VarSizeArray.value` reads the count, then either the fixed-chunk path
  (with exact-length check when entire, slicing otherwise) or `n` variadic
  element decodes; `datasize` is the length of the kept `data`.
* `Row.value` walks its element codecs at a running offset and checks for
  leftover bytes when entire.
* `StandardDictionary.value` delegates to `Array.value` WITHOUT passing
  `is_entire` on, then rebuilds an `OrderedDict`. -/
def contValue : Cont → List Nat → Bool → Except Err PyResult
  | .integer c, bs, entire => intCValue c bs entire
  | .varSizeString sc, bs, entire => do
    let szr ← intCValue sc bs false
    let n : Int :=
      match szr.value with
      | .int n => n
      | _ => 0
    let ds : Int := szr.datasize + n
    if entire ∧ (bs.length : Int) ≠ ds then .error .invalidParamSize
    else
      let data := if entire then bs else pyTakeI ds bs
      match utf8Decode (pyDropI szr.datasize data) with
      | some s => .ok ⟨.str s, data, ds, .node [.i szr.datasize, .i n]⟩
      | none => .error .unicodeError
  | .stoppedString stop, bs, entire =>
    if entire then
      if ¬ pyEndsWith bs stop then .error .notStopped
      else
        match utf8Decode (pyTakeI ((bs.length : Int) - stop.length) bs) with
        | some s =>
          .ok ⟨.str s, bs, bs.length,
               .node [.i ((bs.length : Int) - stop.length), .i stop.length]⟩
        | none => .error .unicodeError
    else
      match firstStopLen stop bs with
      | none => .error .notStopped
      | some l =>
        let data := bs.take l
        match utf8Decode (pyTakeI ((l : Int) - stop.length) data) with
        | some s =>
          .ok ⟨.str s, data, l, .node [.i ((l : Int) - stop.length), .i stop.length]⟩
        | none => .error .unicodeError
  | .array e n, bs, entire => do
    let data ← trimData (.array e n) bs entire
    if fixedB e then
      let k := (datasizeAttr e).getD 0
      if data.length % k ≠ 0 then .error .invalidParamSize
      else do
        let rs ← exMapM (fun t => contValue e t true) (chunksOf k data)
        .ok ⟨.seq (rs.map (·.value)), data, (rs.map (·.datasize)).sum,
             .node (rs.map (·.subsize))⟩
    else do
      let rs ← walkOpen (fun d => contValue e d false)
                 (data.length + 1 + (match n with | some k => k | none => 0)) data 0 n 0
      .ok ⟨.seq (rs.map (·.value)), data, (rs.map (·.datasize)).sum,
           .node (rs.map (·.subsize))⟩
  | .varSizeArray e sc, bs, entire => do
    let szr ← intCValue sc bs false
    let n : Int :=
      match szr.value with
      | .int n => n
      | _ => 0
    if fixedB e then
      let k := (datasizeAttr e).getD 0
      let ds : Int := szr.datasize + n * k
      if entire then
        if ds ≠ (bs.length : Int) then .error .invalidParamSize
        else do
          let rs ← exMapM (fun t => contValue e t true) (chunksOf k (pyDropI szr.datasize bs))
          .ok ⟨.seq (rs.map (·.value)), bs, (bs.length : Int),
               .node [.i szr.datasize, .node (rs.map (·.subsize))]⟩
      else
        if (bs.length : Int) < ds then .error .invalidParamSize
        else do
          let data := pyTakeI ds bs
          let rs ← exMapM (fun t => contValue e t true) (chunksOf k (pyDropI szr.datasize data))
          .ok ⟨.seq (rs.map (·.value)), data, (data.length : Int),
               .node [.i szr.datasize, .node (rs.map (·.subsize))]⟩
    else do
      let rs ← vwalk (fun d => contValue e d false) n.toNat (pyDropI szr.datasize bs) 0 entire
      .ok ⟨.seq (rs.map (·.value)), bs, (bs.length : Int),
           .node [.i szr.datasize, .node (rs.map (·.subsize))]⟩
  | .row cs g, bs, entire => do
    let data ← trimData (.row cs g) bs entire
    let rs ← rowValueGo cs data 0 entire
    let ds : Int := (rs.map (·.datasize)).sum
    if entire ∧ ds ≠ (data.length : Int) then .error .invalidParamSize
    else .ok ⟨.seq (rs.map (·.value)), data, ds, .node (rs.map (·.subsize))⟩
  | .standardDictionary kc vc, bs, _ => do
    let r ← contValue (.array (.row [kc, vc] false) none) bs false
    let vs :=
      match r.value with
      | .seq vs => vs
      | _ => []
    let ps ← toPairs vs
    .ok ⟨.dict (odictOfPairs ps), r.data, r.datasize, r.subsize⟩
termination_by c _ _ => w c
decreasing_by all_goals simp [w, ws] <;> omega

/-- The `Row._iter_eresults` loop: decode each element codec at the running
offset into the original buffer, then with `is_entire` a leftover check. -/
def rowValueGo : List Cont → List Nat → Int → Bool → Except Err (List PyResult)
  | [], data, i, entire =>
    if entire ∧ pyDropI i data ≠ [] then .error .invalidParamSize else .ok []
  | c :: cs, data, i, entire => do
    let r ← contValue c (pyDropI i data) false
    let rs ← rowValueGo cs data (i + r.datasize) entire
    .ok (r :: rs)
termination_by cs _ _ _ => ws cs
decreasing_by all_goals simp [w, ws] <;> omega

end

/-- Constructor `Integer.__init__`: the width must be one of 1, 2, 4, 8
(`InitializationValueError` otherwise).  The
`FixedSizeStructBasedContainer` part then computes `_subsize = (size,)` and
`_datasize = size` for the marker characters modelled by `FmtFirst`; its
`fmt_first` validity check never raises (see `fsbcInit`). -/
def integerInit (size : Nat) (signed : Bool) (first : Option FmtFirst) : Except Err IntC :=
  if size = 1 ∨ size = 2 ∨ size = 4 ∨ size = 8 then
    .ok ⟨size, signed, first.getD .lt⟩
  else .error .initValueError

/-- Constructor `Array.__init__`: validates the element codec, requires an
integer `n ≥ 1` when given, and then executes
`self._datasize = self.n * elementc.size`, which raises `AttributeError`
whenever it is reached (`n` given and a fixed element codec) because no
container class defines a `size` attribute. -/
def arrayInit (e : Cont) (n : Option Nat) : Except Err Cont :=
  match n with
  | some k =>
    if k < 1 then .error .initValueError
    else if fixedB e then .error .attributeError
    else .ok (.array e (some k))
  | none => .ok (.array e none)

/-- Constructor `Row.__init__`: at least one element codec
(`InitializationPosArgMissingError` otherwise); an explicit `n` must equal
their number (`InitializationValueError` otherwise). -/
def rowInit (cs : List Cont) (n : Option Nat) : Except Err Cont :=
  if cs.isEmpty then .error .initPosArgMissing
  else
    match n with
    | some k => if k ≠ cs.length then .error .initValueError else .ok (.row cs true)
    | none => .ok (.row cs false)

/-- Constructor `StandardDictionary.__init__`: validates both codecs, builds
`Row(keyc, valuec)` with implicit arity (hence never fixed) and passes it to
`Array.__init__`, which therefore succeeds. -/
def sdInit (kc vc : Cont) : Except Err Cont :=
  (arrayInit (.row [kc, vc] false) none).map (fun _ => .standardDictionary kc vc)

mutual

/-- Codec terms reachable through the source constructors: integer widths in
the valid set, arrays with a given `n ≥ 1` and (as `arrayInit` forces) a
non-fixed element codec, nonempty rows. -/
def wfB : Cont → Bool
  | .integer c => c.size == 1 || c.size == 2 || c.size == 4 || c.size == 8
  | .varSizeString sc => sc.size == 1 || sc.size == 2 || sc.size == 4 || sc.size == 8
  | .stoppedString _ => true
  | .array e n =>
    wfB e &&
      (match n with
       | some k => decide (1 ≤ k) && !fixedB e
       | none => true)
  | .varSizeArray e sc =>
    wfB e && (sc.size == 1 || sc.size == 2 || sc.size == 4 || sc.size == 8)
  | .row cs _ => !cs.isEmpty && wfBL cs
  | .standardDictionary kc vc => wfB kc && wfB vc

/-- Construability of every codec in a list. -/
def wfBL : List Cont → Bool
  | [] => true
  | c :: cs => wfB c && wfBL cs

end

mutual

/-- Sufficient syntactic condition for a codec to be prefix-exact in
combinator element position, i.e. decoding `encode(v) ++ rest` with
`is_entire=False` consumes exactly `encode(v)`.  Open-count arrays and
dictionaries keep walking into `rest`, and a `VarSizeArray` with a
variable-size element codec reports the whole buffer length as its
`datasize`, so those are excluded; a terminated string needs a nonempty
terminator (plus the value-side condition `goodVal`). -/
def goodElem : Cont → Bool
  | .integer _ => true
  | .varSizeString _ => true
  | .stoppedString stop => !stop.isEmpty
  | .array e n => n.isSome && goodElem e
  | .varSizeArray e _ => fixedB e
  | .row cs _ => goodElemL cs
  | .standardDictionary _ _ => false

/-- Prefix-exactness of every codec in a list. -/
def goodElemL : List Cont → Bool
  | [] => true
  | c :: cs => goodElem c && goodElemL cs

end

/-- Sufficient condition at the top level of an `is_entire=True` decode of
exactly one encoded instance: all combinator elements must be prefix-exact,
while the top-level codec itself may additionally be an open-count array, a
dictionary, or a variable-element `VarSizeArray`. -/
def goodTop : Cont → Bool
  | .array e _ => goodElem e
  | .varSizeArray e _ => fixedB e || goodElem e
  | .row cs _ => goodElemL cs
  | .standardDictionary kc vc => goodElem kc && goodElem vc
  | _ => true

mutual

/-- Value-side condition for round-tripping: every terminated-string text
occurring in the value encodes to bytes whose first prefix ending with the
terminator is the entire encoding (in particular the text itself contains
no embedded terminator sequence). -/
def goodVal : Cont → Value → Bool
  | .stoppedString stop, .str s =>
    (match utf8Encode s with
     | some enc => firstStopLen stop (enc ++ stop) == some (enc.length + stop.length)
     | none => true)
  | .array e _, .seq vs => goodValL e vs
  | .varSizeArray e _, .seq vs => goodValL e vs
  | .row cs _, .seq vs => goodValS cs vs
  | .standardDictionary kc vc, .dict ps => goodValP kc vc ps
  | _, _ => true

/-- Value-side condition for each element of a homogeneous sequence. -/
def goodValL : Cont → List Value → Bool
  | _, [] => true
  | e, v :: vs => goodVal e v && goodValL e vs

/-- Value-side condition for positional elements of a row. -/
def goodValS : List Cont → List Value → Bool
  | [], _ => true
  | _ :: _, [] => true
  | c :: cs, v :: vs => goodVal c v && goodValS cs vs

/-- Value-side condition for the pairs of a dictionary. -/
def goodValP : Cont → Cont → List (Value × Value) → Bool
  | _, _, [] => true
  | kc, vc, (k, v) :: ps => goodVal kc k && goodVal vc v && goodValP kc vc ps

end

/-- Rows with implicit arity: the only codecs that can carry a `_datasize`
attribute while reporting `fixed == False`. -/
def implicitRow : Cont → Bool
  | .row _ g => !g
  | _ => false

/-- Prefix-exact decoding: decoding `enc ++ tail` with `is_entire=False`
succeeds for every `tail`, reproduces the value, and reports exactly
`enc.length` as `datasize`. -/
def PrefixOK (c : Cont) (v : Value) (enc : List Nat) : Prop :=
  ∀ tail : List Nat, ∃ rd : PyResult,
    contValue c (enc ++ tail) false = .ok rd
    ∧ rd.value = v ∧ rd.datasize = (enc.length : Int)

/-- Entire decoding: decoding exactly `enc` with `is_entire=True` succeeds,
reproduces the value, and reports `enc.length` as `datasize`. -/
def EntireOK (c : Cont) (v : Value) (enc : List Nat) : Prop :=
  ∃ rd : PyResult,
    contValue c enc true = .ok rd
    ∧ rd.value = v ∧ rd.datasize = (enc.length : Int)

/-- Exact decoding with `is_entire=False`: decoding exactly `enc` without a
tail succeeds, reproduces the value, and reports `enc.length` as `datasize`
(this is the mode `StandardDictionary.value` uses on its delegate). -/
def ExactOK (c : Cont) (v : Value) (enc : List Nat) : Prop :=
  ∃ rd : PyResult,
    contValue c enc false = .ok rd
    ∧ rd.value = v ∧ rd.datasize = (enc.length : Int)

/-- The full bundle of invariants a successful encoding `contData c v = r`
enjoys: the result echoes the value, its `datasize` equals the length of
its `data`, a fixed codec's `datasize` attribute predicted that length, a
prefix-exact codec never produces empty data and its encodings decode back
as prefixes, and a valid top-level codec's encodings decode back whole
(both with and without `is_entire`). -/
def EncOK (c : Cont) (v : Value) (r : PyResult) : Prop :=
  r.value = v
  ∧ r.datasize = (r.data.length : Int)
  ∧ (fixedB c = true → datasizeAttr c = some r.data.length)
  ∧ (goodElem c = true → r.data ≠ [])
  ∧ (goodElem c = true → PrefixOK c v r.data)
  ∧ (goodTop c = true → ExactOK c v r.data ∧ EntireOK c v r.data)

/-- Specification of a successful terminator scan: the result is in the
scanned window, its prefix ends with the terminator, and it is minimal. -/
theorem scanStop_some_spec (stop data : List Nat) :
    ∀ (steps l0 l : Nat), scanStop stop data l0 steps = some l →
      l0 ≤ l ∧ l < l0 + steps ∧ pyEndsWith (data.take l) stop = true ∧
        ∀ m, l0 ≤ m → m < l → pyEndsWith (data.take m) stop = false := by
  intro steps
  induction steps with
  | zero => intro l0 l h; simp [scanStop] at h
  | succ k ih =>
    intro l0 l h
    rw [scanStop] at h
    split at h
    · rename_i he
      cases h
      exact ⟨le_rfl, by omega, he, fun m h1 h2 => absurd h1 (by omega)⟩
    · rename_i he
      obtain ⟨h1, h2, h3, h4⟩ := ih (l0 + 1) l h
      refine ⟨by omega, by omega, h3, fun m hm1 hm2 => ?_⟩
      rcases Nat.eq_or_lt_of_le hm1 with rfl | hlt
      · exact Bool.not_eq_true _ ▸ Bool.of_not_eq_true he
      · exact h4 m (by omega) hm2

/-- A failed terminator scan means no prefix in the window matches. -/
theorem scanStop_none_spec (stop data : List Nat) :
    ∀ (steps l0 : Nat), scanStop stop data l0 steps = none →
      ∀ m, l0 ≤ m → m < l0 + steps → pyEndsWith (data.take m) stop = false := by
  intro steps
  induction steps with
  | zero => intro l0 _ m h1 h2; omega
  | succ k ih =>
    intro l0 h m h1 h2
    rw [scanStop] at h
    split at h
    · exact absurd h (by simp)
    · rename_i he
      rcases Nat.eq_or_lt_of_le h1 with rfl | hlt
      · exact Bool.not_eq_true _ ▸ Bool.of_not_eq_true he
      · exact ih (l0 + 1) h m (by omega) (by omega)

/-- Completeness of the terminator scan: a minimal match in the window is
found. -/
theorem scanStop_eq_some (stop data : List Nat) :
    ∀ (steps l0 l : Nat), l0 ≤ l → l < l0 + steps →
      pyEndsWith (data.take l) stop = true →
      (∀ m, l0 ≤ m → m < l → pyEndsWith (data.take m) stop = false) →
      scanStop stop data l0 steps = some l := by
  intro steps
  induction steps with
  | zero => intro l0 l h1 h2; omega
  | succ k ih =>
    intro l0 l h1 h2 h3 h4
    rw [scanStop]
    rcases Nat.eq_or_lt_of_le h1 with rfl | hlt
    · simp [h3]
    · rw [h4 l0 le_rfl hlt]
      simp only [Bool.false_eq_true, if_false]
      exact ih (l0 + 1) l (by omega) (by omega) h3 (fun m hm1 hm2 => h4 m (by omega) hm2)

/-- Every scan that misses on all window positions fails. -/
theorem scanStop_eq_none (stop data : List Nat) :
    ∀ (steps l0 : Nat),
      (∀ m, l0 ≤ m → m < l0 + steps → pyEndsWith (data.take m) stop = false) →
      scanStop stop data l0 steps = none := by
  intro steps
  induction steps with
  | zero => intro l0 _; rfl
  | succ k ih =>
    intro l0 h
    rw [scanStop, h l0 le_rfl (by omega)]
    simp only [Bool.false_eq_true, if_false]
    exact ih (l0 + 1) (fun m hm1 hm2 => h m (by omega) (by omega))

/-- Little-endian expansion produces exactly `k` bytes. -/
theorem leBytes_length (k n : Nat) : (leBytes k n).length = k := by
  induction k generalizing n with
  | zero => rfl
  | succ k ih => simp [leBytes, ih]

/-- Little-endian expansion and valuation are inverse below `2^(8k)`. -/
theorem leNat_leBytes (k n : Nat) (h : n < 2 ^ (8 * k)) : leNat (leBytes k n) = n := by
  induction k generalizing n with
  | zero => simp [leBytes, leNat]; omega
  | succ k ih =>
    have hdiv : n / 256 < 2 ^ (8 * k) := by
      rw [Nat.div_lt_iff_lt_mul (by norm_num)]
      calc n < 2 ^ (8 * (k + 1)) := h
        _ = 2 ^ (8 * k) * 256 := by rw [show 8 * (k + 1) = 8 * k + 8 by ring, pow_add]; norm_num
    simp only [leBytes, leNat, ih (n / 256) hdiv]
    omega

/-- Byte arrangement is an involution. -/
theorem arrange_arrange (bo : ByteOrder) (bs : List Nat) :
    bo.arrange (bo.arrange bs) = bs := by
  cases bo <;> simp [ByteOrder.arrange]

/-- Byte arrangement preserves length. -/
theorem arrange_length (bo : ByteOrder) (bs : List Nat) :
    (bo.arrange bs).length = bs.length := by
  cases bo <;> simp [ByteOrder.arrange]

/-- Euclidean remainder of a value within `[-M, M)`. -/
theorem emod_cases (v M : Int) (hM : 0 < M) (hlo : -M ≤ v) (hhi : v < M) :
    (0 ≤ v ∧ v.emod M = v) ∨ (v < 0 ∧ v.emod M = v + M) := by
  rcases le_or_lt 0 v with hv0 | hv0
  · exact Or.inl ⟨hv0, Int.emod_eq_of_lt hv0 hhi⟩
  · refine Or.inr ⟨hv0, ?_⟩
    have h1 : (v + M * 1) % M = v % M := Int.add_mul_emod_self_left v M 1
    rw [mul_one] at h1
    have h1e : (v + M).emod M = v.emod M := h1
    have h2 : (v + M).emod M = v + M := Int.emod_eq_of_lt (by omega) (by omega)
    omega

/-- Unpacking inverts packing for every width, signedness and byte order. -/
theorem intUnpack_intPack (k : Nat) (signed : Bool) (bo : ByteOrder) (v : Int)
    (bs : List Nat) (hk : 1 ≤ k) (h : intPack k signed bo v = some bs) :
    intUnpack k signed bo bs = some v := by
  have hpow : (2 : Int) ^ (8 * k - 1) * 2 = 2 ^ (8 * k) := by
    rw [← pow_succ]
    congr 1
    omega
  have hcastM : ((2 ^ (8 * k) : Nat) : Int) = (2 : Int) ^ (8 * k) := by push_cast; ring
  have hcastH : ((2 ^ (8 * k - 1) : Nat) : Int) = (2 : Int) ^ (8 * k - 1) := by push_cast; ring
  have hHpos : (0 : Int) < 2 ^ (8 * k - 1) := by positivity
  have hmlo : (0 : Int) ≤ v.emod (2 ^ (8 * k)) := Int.emod_nonneg v (by positivity)
  have hmhi : v.emod (2 ^ (8 * k)) < 2 ^ (8 * k) := Int.emod_lt_of_pos v (by positivity)
  cases signed with
  | false =>
    simp only [intPack, Bool.false_eq_true, if_false] at h
    split_ifs at h with hr
    rw [Option.some_inj] at h
    subst h
    have hv : v.emod (2 ^ (8 * k)) = v := Int.emod_eq_of_lt hr.1 hr.2
    rw [intUnpack, if_pos (by rw [arrange_length, leBytes_length])]
    rw [arrange_arrange, leNat_leBytes _ _ (by omega)]
    rw [if_neg (by rintro ⟨hc, -⟩; exact absurd hc (by decide))]
    rw [Option.some_inj]
    omega
  | true =>
    simp only [intPack, if_true] at h
    split_ifs at h with hr
    rw [Option.some_inj] at h
    subst h
    rcases emod_cases v (2 ^ (8 * k)) (by positivity) (by omega) (by omega) with
      ⟨hv0, hv⟩ | ⟨hv0, hv⟩
    · rw [intUnpack, if_pos (by rw [arrange_length, leBytes_length])]
      rw [arrange_arrange, leNat_leBytes _ _ (by omega)]
      rw [if_neg (by rintro ⟨-, hc⟩; omega)]
      rw [Option.some_inj]
      omega
    · rw [intUnpack, if_pos (by rw [arrange_length, leBytes_length])]
      rw [arrange_arrange, leNat_leBytes _ _ (by omega)]
      rw [if_pos (by refine ⟨rfl, ?_⟩; omega)]
      rw [Option.some_inj]
      omega

set_option maxRecDepth 4000 in
/-- Decoding one sequence inverts the per-character encoder, whatever
bytes follow. -/
theorem utf8DecChar_encodeChar (c : Nat) (bs rest : List Nat)
    (h : utf8EncodeChar c = some bs) :
    utf8DecChar (bs ++ rest) = some (c, rest) := by
  have e1 := Nat.div_add_mod c 64
  have e2 := Nat.div_add_mod (c / 64) 64
  have e3 := Nat.div_add_mod (c / 4096) 64
  have e4 : c / 64 / 64 = c / 4096 := by rw [Nat.div_div_eq_div_mul]
  have e5 : c / 4096 / 64 = c / 262144 := by rw [Nat.div_div_eq_div_mul]
  rw [utf8EncodeChar] at h
  split_ifs at h with h1 h2 h3 h4 h5 h6
  · cases h
    show utf8DecChar (c :: rest) = some (c, rest)
    rw [utf8DecChar.eq_def]
    dsimp only
    rw [if_pos h1]
  · cases h
    show utf8DecChar ((0xC0 + c / 64) :: (0x80 + c % 64) :: rest) = some (c, rest)
    rw [utf8DecChar.eq_def]
    dsimp only
    rw [if_neg (by omega), if_neg (by omega), if_pos (by omega)]
    rw [if_pos (by simp only [utf8Cont, Bool.and_eq_true, decide_eq_true_eq]; omega)]
    congr 2
    omega
  · cases h
    show utf8DecChar ((0xE0 + c / 4096) :: (0x80 + c / 64 % 64) :: (0x80 + c % 64) :: rest)
        = some (c, rest)
    rw [utf8DecChar.eq_def]
    dsimp only
    rw [if_neg (by omega), if_neg (by omega), if_neg (by omega), if_pos (by omega)]
    rw [if_pos (by
      refine ⟨by simp only [utf8Cont, Bool.and_eq_true, decide_eq_true_eq]; omega,
        by simp only [utf8Cont, Bool.and_eq_true, decide_eq_true_eq]; omega, by omega, by omega⟩)]
    congr 2
    omega
  · cases h
    show utf8DecChar ((0xE0 + c / 4096) :: (0x80 + c / 64 % 64) :: (0x80 + c % 64) :: rest)
        = some (c, rest)
    rw [utf8DecChar.eq_def]
    dsimp only
    rw [if_neg (by omega), if_neg (by omega), if_neg (by omega), if_pos (by omega)]
    rw [if_pos (by
      refine ⟨by simp only [utf8Cont, Bool.and_eq_true, decide_eq_true_eq]; omega,
        by simp only [utf8Cont, Bool.and_eq_true, decide_eq_true_eq]; omega, by omega, by omega⟩)]
    congr 2
    omega
  · cases h
    show utf8DecChar ((0xF0 + c / 262144) :: (0x80 + c / 4096 % 64) :: (0x80 + c / 64 % 64)
        :: (0x80 + c % 64) :: rest) = some (c, rest)
    rw [utf8DecChar.eq_def]
    dsimp only
    rw [if_neg (by omega), if_neg (by omega), if_neg (by omega), if_neg (by omega),
      if_pos (by omega)]
    rw [if_pos (by
      refine ⟨by simp only [utf8Cont, Bool.and_eq_true, decide_eq_true_eq]; omega,
        by simp only [utf8Cont, Bool.and_eq_true, decide_eq_true_eq]; omega,
        by simp only [utf8Cont, Bool.and_eq_true, decide_eq_true_eq]; omega, by omega, by omega⟩)]
    congr 2
    omega


/-- A character encoding is never empty. -/
theorem utf8EncodeChar_ne_nil (c : Nat) (bs : List Nat) (h : utf8EncodeChar c = some bs) :
    bs ≠ [] := by
  rw [utf8EncodeChar] at h
  split_ifs at h <;> (cases h; simp)

/-- The fuelled decoding loop inverts the encoder provided the fuel covers
the buffer length. -/
theorem utf8DecodeGo_encode (s : List Nat) :
    ∀ (enc : List Nat) (fuel : Nat), utf8Encode s = some enc → enc.length ≤ fuel →
      utf8DecodeGo fuel enc = some s := by
  induction s with
  | nil =>
    intro enc fuel h _
    simp only [utf8Encode, Option.some_inj] at h
    subst h
    cases fuel <;> rfl
  | cons c cs ih =>
    intro enc fuel h hf
    rw [utf8Encode] at h
    cases hc : utf8EncodeChar c with
    | none => rw [hc] at h; exact absurd h (by simp)
    | some b =>
      cases hcs : utf8Encode cs with
      | none => rw [hc, hcs] at h; exact absurd h (by simp)
      | some bsx =>
        rw [hc, hcs] at h
        simp at h
        subst h
        obtain ⟨b0, bt, rfl⟩ : ∃ b0 bt, b = b0 :: bt := by
          cases b with
          | nil => exact absurd rfl (utf8EncodeChar_ne_nil c [] hc)
          | cons b0 bt => exact ⟨b0, bt, rfl⟩
        obtain ⟨f, rfl⟩ : ∃ f, fuel = f + 1 := by
          refine ⟨fuel - 1, ?_⟩
          simp only [List.cons_append, List.length_cons] at hf
          omega
        have hdec := utf8DecChar_encodeChar c (b0 :: bt) bsx hc
        rw [List.cons_append] at hdec
        rw [List.cons_append, utf8DecodeGo, hdec]
        dsimp only
        rw [ih bsx f hcs (by simp only [List.cons_append, List.length_cons,
          List.length_append] at hf ⊢; omega)]
        rfl

/-- UTF-8 decoding inverts encoding. -/
theorem utf8Decode_utf8Encode (s enc : List Nat) (h : utf8Encode s = some enc) :
    utf8Decode enc = some s :=
  utf8DecodeGo_encode s enc enc.length h le_rfl

/-- A nonnegative Python slice is a take. -/
theorem pyTakeI_natCast (k : Nat) (l : List Nat) : pyTakeI (k : Int) l = l.take k := by
  simp [pyTakeI]

/-- A nonnegative Python suffix slice is a drop. -/
theorem pyDropI_natCast (k : Nat) (l : List Nat) : pyDropI (k : Int) l = l.drop k := by
  simp [pyDropI]

/-- Inserting a fresh key appends. -/
theorem odUpsert_fresh (k v : Value) (acc : List (Value × Value))
    (h : ∀ p ∈ acc, vbeq p.1 k = false) :
    odUpsert k v acc = acc ++ [(k, v)] := by
  induction acc with
  | nil => rfl
  | cons p t ih =>
    obtain ⟨k', v'⟩ := p
    rw [odUpsert, if_neg (by simp [h (k', v') (by simp)]), ih (fun q hq => h q (by simp [hq]))]
    rfl

/-- OrderedDict construction over fresh keys concatenates. -/
theorem odict_go (ps : List (Value × Value)) :
    ∀ acc : List (Value × Value), nodupKeys ps = true →
      (∀ p ∈ acc, ∀ q ∈ ps, vbeq p.1 q.1 = false) →
      ps.foldl (fun acc p => odUpsert p.1 p.2 acc) acc = acc ++ ps := by
  induction ps with
  | nil => intro acc _ _; simp
  | cons p ps ih =>
    intro acc hnd hfr
    obtain ⟨hk, hnd'⟩ : keyFresh p.1 ps = true ∧ nodupKeys ps = true := by
      simpa [nodupKeys, Bool.and_eq_true] using hnd
    rw [List.foldl_cons, odUpsert_fresh p.1 p.2 acc (fun q hq => hfr q hq p (by simp))]
    rw [ih (acc ++ [(p.1, p.2)]) hnd' ?_]
    · simp
    · intro x hx q hq
      rcases List.mem_append.mp hx with hx | hx
      · exact hfr x hx q (by simp [hq])
      · have hxp : x = (p.1, p.2) := by simpa using hx
        subst hxp
        have hk2 : ∀ z ∈ ps, vbeq p.1 z.1 = false := by
          intro z hz
          have := List.all_eq_true.mp hk z hz
          simpa using this
        exact hk2 q hq

/-- On a duplicate-free pair list the OrderedDict keeps it unchanged. -/
theorem odictOfPairs_nodup (ps : List (Value × Value)) (h : nodupKeys ps = true) :
    odictOfPairs ps = ps := by
  have h1 := odict_go ps [] h (by intro p hp; simp at hp)
  simpa [odictOfPairs] using h1

/-- Every codec has positive measure. -/
theorem w_pos (c : Cont) : 1 ≤ w c := by
  cases c <;> simp [w] <;> omega

/-- Measure of a nonempty codec list. -/
theorem ws_cons (c : Cont) (cs : List Cont) : ws (c :: cs) = 1 + w c + ws cs := rfl

/-- The per-element test of `dsRow` is exactly `fixedB`. -/
theorem dsRow_cons (c : Cont) (cs : List Cont) :
    dsRow (c :: cs) =
      (if fixedB c then
        (match datasizeAttr c, dsRow cs with
         | some a, some b => some (a + b)
         | _, _ => none)
       else none) := by
  cases c <;> rfl

/-- Prefix-exact codecs are also valid top-level codecs. -/
theorem goodElem_goodTop (c : Cont) (h : goodElem c = true) : goodTop c = true := by
  cases c <;> simp_all [goodElem, goodTop]

/-- A concatenation of nonempty blocks is at least as long as their count. -/
theorem length_le_flatten (ls : List (List Nat)) (h : ∀ x ∈ ls, x ≠ []) :
    ls.length ≤ ls.flatten.length := by
  induction ls with
  | nil => simp
  | cons x t ih =>
    have hx : 1 ≤ x.length := by
      have := h x (by simp)
      cases x with
      | nil => exact absurd rfl this
      | cons _ _ => simp
    have := ih (fun y hy => h y (by simp [hy]))
    simp only [List.flatten_cons, List.length_cons, List.length_append]
    omega

/-- Chunking splits a concatenation of equal-width blocks back apart. -/
theorem chunksOfGo_flatten (k : Nat) (hk : 1 ≤ k) :
    ∀ (ls : List (List Nat)) (fuel : Nat), (∀ x ∈ ls, x.length = k) →
      ls.flatten.length ≤ fuel → chunksOfGo fuel k ls.flatten = ls := by
  intro ls
  induction ls with
  | nil =>
    intro fuel _ _
    cases fuel with
    | zero => rfl
    | succ f =>
      rw [chunksOfGo, if_pos (by simp only [List.flatten_nil, List.length_nil]; omega)]
  | cons x t ih =>
    intro fuel hlen hfuel
    have hx : x.length = k := hlen x (by simp)
    have hflat : (x :: t).flatten.length = k + t.flatten.length := by
      simp [hx]
    obtain ⟨f, rfl⟩ : ∃ f, fuel = f + 1 := ⟨fuel - 1, by omega⟩
    rw [List.flatten_cons, chunksOfGo]
    rw [if_neg (by simp only [not_or, not_lt, List.length_append]; omega)]
    have htake : (x ++ t.flatten).take k = x := by
      rw [← hx]
      exact List.take_left x t.flatten
    have hdrop : (x ++ t.flatten).drop k = t.flatten := by
      rw [← hx]
      exact List.drop_left x t.flatten
    rw [htake, hdrop]
    rw [ih f (fun y hy => hlen y (by simp [hy])) (by
      simp only [List.flatten_cons, List.length_append, hx] at hfuel
      omega)]

/-- Chunking inverts flattening of equal-width blocks. -/
theorem chunksOf_flatten (k : Nat) (ls : List (List Nat)) (hk : 1 ≤ k)
    (h : ∀ x ∈ ls, x.length = k) :
    chunksOf k ls.flatten = ls :=
  chunksOfGo_flatten k hk ls ls.flatten.length h le_rfl

/-- The summed lengths of blocks equal the flattened length. -/
theorem sum_len_cast (ls : List (List Nat)) :
    (ls.map (fun x => (x.length : Int))).sum = (ls.flatten.length : Int) := by
  induction ls with
  | nil => simp
  | cons x t ih =>
    simp only [List.map_cons, List.sum_cons, ih, List.flatten_cons, List.length_append]
    push_cast
    ring_nf

/-- Pair extraction inverts the pair-to-sequence conversion. -/
theorem toPairs_pairSeqs (ps : List (Value × Value)) :
    toPairs (ps.map (fun p => Value.seq [p.1, p.2])) = .ok ps := by
  induction ps with
  | nil => rfl
  | cons p t ih => simp [toPairs, ih, Except.map]

/-- Advancing a nonnegative offset composes with drop. -/
theorem pyDropI_add (i : Int) (k : Nat) (l : List Nat) (hi : 0 ≤ i) :
    pyDropI (i + (k : Int)) l = (pyDropI i l).drop k := by
  obtain ⟨m, rfl⟩ : ∃ m : Nat, i = (m : Int) := ⟨i.toNat, by omega⟩
  rw [show (m : Int) + (k : Int) = ((m + k : Nat) : Int) by push_cast; ring]
  rw [pyDropI_natCast, pyDropI_natCast, List.drop_drop]

/-- Offset zero keeps the buffer. -/
theorem pyDropI_zero (l : List Nat) : pyDropI 0 l = l := by
  simp [pyDropI]

/-- Joint induction: fixed codecs (and codec lists summing in `dsRow`) are
prefix-exact elements. -/
theorem fixed_goodElem_aux :
    ∀ N : Nat, (∀ c : Cont, w c ≤ N → fixedB c = true → goodElem c = true)
      ∧ (∀ cs : List Cont, ws cs ≤ N → (dsRow cs).isSome = true → goodElemL cs = true) := by
  intro N
  induction N with
  | zero =>
    constructor
    · intro c hw
      have := w_pos c
      omega
    · intro cs hw _
      cases cs with
      | nil => rfl
      | cons c cs =>
        rw [ws_cons] at hw
        have := w_pos c
        omega
  | succ N ih =>
    constructor
    · intro c hw hfx
      cases c with
      | integer ic => rfl
      | varSizeString sc => simp [fixedB, datasizeAttr] at hfx
      | stoppedString stop => simp [fixedB, datasizeAttr] at hfx
      | array e n => simp [fixedB, datasizeAttr] at hfx
      | varSizeArray e sc => simp [fixedB, datasizeAttr] at hfx
      | standardDictionary kc vc => simp [fixedB, datasizeAttr] at hfx
      | row cs g =>
        simp only [fixedB, Bool.and_eq_true] at hfx
        simp only [goodElem]
        apply ih.2 cs ?_ hfx.2
        simp only [w] at hw
        omega
    · intro cs hw hds
      cases cs with
      | nil => rfl
      | cons c cs =>
        rw [dsRow_cons] at hds
        split_ifs at hds with hfx
        · have h2 : (dsRow cs).isSome = true := by
            cases hda : datasizeAttr c with
            | none => rw [hda] at hds; simp at hds
            | some a =>
              cases hdr : dsRow cs with
              | none => rw [hda, hdr] at hds; simp at hds
              | some b => simp
          rw [ws_cons] at hw
          simp only [goodElemL, Bool.and_eq_true]
          exact ⟨ih.1 c (by omega) hfx, ih.2 cs (by omega) h2⟩
        · simp at hds

/-- Every fixed codec is prefix-exact in element position. -/
theorem fixedB_goodElem (c : Cont) (h : fixedB c = true) : goodElem c = true :=
  (fixed_goodElem_aux (w c)).1 c le_rfl h

/-- Pair-to-sequence conversion preserves value well-formedness. -/
theorem wfvL_pairSeqs (ps : List (Value × Value)) (h : wfvP ps = true) :
    wfvL (ps.map (fun p => Value.seq [p.1, p.2])) = true := by
  induction ps with
  | nil => rfl
  | cons p t ih =>
    obtain ⟨⟨h1, h2⟩, h3⟩ : (wfv p.1 = true ∧ wfv p.2 = true) ∧ wfvP t = true := by
      obtain ⟨k, v⟩ := p
      simpa [wfvP, Bool.and_eq_true, and_assoc] using h
    simp only [List.map_cons, wfvL, wfv, Bool.and_eq_true]
    exact ⟨by simp [wfvL, h1, h2], ih h3⟩

/-- Pair-to-sequence conversion carries the dictionary value conditions to
the underlying row elements. -/
theorem goodValL_pairSeqs (kc vc : Cont) (ps : List (Value × Value))
    (h : goodValP kc vc ps = true) :
    goodValL (.row [kc, vc] false) (ps.map (fun p => Value.seq [p.1, p.2])) = true := by
  induction ps with
  | nil => rfl
  | cons p t ih =>
    obtain ⟨⟨h1, h2⟩, h3⟩ : (goodVal kc p.1 = true ∧ goodVal vc p.2 = true)
        ∧ goodValP kc vc t = true := by
      obtain ⟨k, v⟩ := p
      simpa [goodValP, Bool.and_eq_true, and_assoc] using h
    simp only [List.map_cons, goodValL, Bool.and_eq_true]
    refine ⟨?_, ih h3⟩
    simp [goodVal, goodValS, h1, h2]

/-- Packing produces exactly `k` bytes. -/
theorem intPack_length (k : Nat) (s : Bool) (bo : ByteOrder) (v : Int) (bs : List Nat)
    (h : intPack k s bo v = some bs) : bs.length = k := by
  rw [intPack] at h
  split_ifs at h <;> first
    | (rw [Option.some_inj] at h
       subst h
       rw [arrange_length, leBytes_length])
    | exact absurd h (by simp)

/-- Shape of a successful `Integer.data` result. -/
theorem intCData_shape (ic : IntC) (i : Int) (r : PyResult)
    (h : intCData ic (.int i) = .ok r) :
    r = ⟨.int i, r.data, (ic.size : Int), .i ic.size⟩
      ∧ r.data.length = ic.size
      ∧ intPack ic.size ic.signed ic.first.order i = some r.data := by
  rw [intCData] at h
  split at h
  · rename_i bs hp
    cases h
    exact ⟨rfl, intPack_length _ _ _ _ _ hp, hp⟩
  · exact absurd h (by simp)

/-- `Integer.value` with `is_entire=False` is prefix-exact on its own
encodings. -/
theorem intC_prefix (ic : IntC) (i : Int) (r : PyResult) (hk : 1 ≤ ic.size)
    (h : intCData ic (.int i) = .ok r) (tail : List Nat) :
    intCValue ic (r.data ++ tail) false
      = .ok ⟨.int i, r.data, (ic.size : Int), .i ic.size⟩ := by
  obtain ⟨hr, hlen, hp⟩ := intCData_shape ic i r h
  rw [intCValue]
  simp only [Bool.false_eq_true, if_false]
  have htake : (r.data ++ tail).take ic.size = r.data := by
    rw [← hlen]
    exact List.take_left r.data tail
  rw [htake, intUnpack_intPack ic.size ic.signed ic.first.order i r.data hk hp]

/-- `Integer.value` with `is_entire=True` inverts `Integer.data`. -/
theorem intC_entire (ic : IntC) (i : Int) (r : PyResult) (hk : 1 ≤ ic.size)
    (h : intCData ic (.int i) = .ok r) :
    intCValue ic r.data true
      = .ok ⟨.int i, r.data, (ic.size : Int), .i ic.size⟩ := by
  obtain ⟨hr, hlen, hp⟩ := intCData_shape ic i r h
  rw [intCValue]
  simp only [if_true]
  rw [if_neg (by omega)]
  rw [intUnpack_intPack ic.size ic.signed ic.first.order i r.data hk hp]

/-- Digits are not byte-order markers. -/
theorem isDigit_not_mem_FIRSTS {c : Char} (h : c.isDigit = true) : c ∉ FIRSTS := by
  intro hm
  have h2 : c = '@' ∨ c = '=' ∨ c = '<' ∨ c = '>' ∨ c = '!' := by simpa [FIRSTS] using hm
  rcases h2 with rfl | rfl | rfl | rfl | rfl <;> exact absurd h (by decide)

/-- The digit-run scan of `iterinst` measures the full digit prefix of a
count-plus-typechar token. -/
theorem digitRunLen_all_digits (ds : List Char) (tc : Char)
    (hds : ∀ c ∈ ds, c.isDigit = true) (htc : tc.isDigit = false) :
    digitRunLen (ds ++ [tc]) = ds.length := by
  induction ds with
  | nil => simp [digitRunLen, htc]
  | cons d ds' ih =>
    have h1 := ih (fun c hc => hds c (by simp [hc]))
    simp only [List.cons_append, digitRunLen, hds d (by simp), if_true, List.length_cons]
    show digitRunLen (ds' ++ [tc]) + 1 = ds'.length + 1
    rw [h1]

/-- The size generator on an exhausted format is empty for any fuel. -/
theorem iterinstGo_nil (fuel : Nat) (first : Option Char) :
    iterinstGo fuel first [] = .ok [] := by
  cases fuel <;> rfl

/-- Evaluation of `structsup.sizes` on a single count-plus-typechar token:
a zero count or a lengthed type character yields one combined field; any
other valid token expands to `count` unit-width fields. -/
theorem pySizes_single_token (ds : List Char) (tc : Char)
    (hne : ds ≠ []) (hds : ∀ c ∈ ds, c.isDigit = true) (htc : tc.isDigit = false)
    (htcF : tc ∉ FIRSTS) :
    pySizes (ds ++ [tc]) =
      (if parseDec ds = 0 ∨ tc ∈ LENGTHED_TYPECHARS then
         match structCountedSize none (parseDec ds) tc with
         | some sz => .ok [sz]
         | none => .error .structError
       else
         match structUnitSize none tc with
         | some sz => .ok (List.replicate (parseDec ds) sz)
         | none => .error .structError) := by
  obtain ⟨d, ds', rfl⟩ : ∃ d ds', ds = d :: ds' := by
    cases ds with
    | nil => exact absurd rfl hne
    | cons d ds' => exact ⟨d, ds', rfl⟩
  have hd : d.isDigit = true := hds d (by simp)
  have hdF : d ∉ FIRSTS := isDigit_not_mem_FIRSTS hd
  have hdS : ¬(d = ' ') := by intro h; rw [h] at hd; exact absurd hd (by decide)
  have hDR : digitRunLen (d :: (ds' ++ [tc])) = ds'.length + 1 := by
    have h1 := digitRunLen_all_digits (d :: ds') tc hds htc
    simpa using h1
  have hTake : (d :: (ds' ++ [tc])).take (ds'.length + 1) = d :: ds' := by
    have h1 := List.take_left (d :: ds') [tc]
    simpa using h1
  have hGetD : (d :: (ds' ++ [tc])).getD (ds'.length + 1) ' ' = tc := by
    have h1 := List.getD_append_right (d :: ds') [tc] ' ' (ds'.length + 1) (by simp)
    simpa using h1
  have hDrop : (d :: (ds' ++ [tc])).drop (ds'.length + 1 + 1) = [] := by
    rw [show ds'.length + 1 + 1 = (d :: (ds' ++ [tc])).length by simp]
    exact List.drop_length _
  rw [show (d :: ds') ++ [tc] = d :: (ds' ++ [tc]) from rfl]
  rw [pySizes]
  rw [show (d :: (ds' ++ [tc])).length = ds'.length + 1 + 1 by simp]
  rw [iterinstGo]
  rw [if_neg hdF, if_neg hdS]
  simp only [hDR, hGetD, hTake, hDrop,
    show (d :: (ds' ++ [tc])).length = ds'.length + 1 + 1 by simp,
    Nat.add_sub_cancel, min_self, Nat.succ_pos, if_true, iterinstGo_nil]
  split
  · cases hcs : structCountedSize none (parseDec (d :: ds')) tc <;> simp [Except.map]
  · cases hcs : structUnitSize none tc <;> simp [Except.map]

/-- C5 (corrected): the format string `"=4s2H"` (standalone no-align mode)
yields the widths `(4, 2, 2)`.  For the lengthed type characters
(`'x'`, `'s'`, `'p'`) a count prefix produces exactly one field of scaled
width; for every other valid type character a positive count prefix
produces `count` independent fields of the unit width, while a zero count
produces a single field of width `0` (that last case is what the original
claim got wrong). -/
theorem C5_format_widths_amended :
    pySizes ['=', '4', 's', '2', 'H'] = .ok [4, 2, 2]
    ∧ (∀ (ds : List Char) (tc : Char) (u : Nat),
        ds ≠ [] → (∀ c ∈ ds, c.isDigit = true) →
        tc.isDigit = false → tc ∉ FIRSTS → structUnitSize none tc = some u →
        (tc ∈ LENGTHED_TYPECHARS → pySizes (ds ++ [tc]) = .ok [parseDec ds * u])
        ∧ (tc ∉ LENGTHED_TYPECHARS → 1 ≤ parseDec ds →
            pySizes (ds ++ [tc]) = .ok (List.replicate (parseDec ds) u))
        ∧ (tc ∉ LENGTHED_TYPECHARS → parseDec ds = 0 →
            pySizes (ds ++ [tc]) = .ok [0])) := by
  refine ⟨rfl, ?_⟩
  intro ds tc u hne hds htc htcF hu
  have hstep := pySizes_single_token ds tc hne hds htc htcF
  have hcs : structCountedSize none (parseDec ds) tc = some (parseDec ds * u) := by
    simp [structCountedSize, htcF, hu]
  refine ⟨?_, ?_, ?_⟩
  · intro hlen
    rw [hstep, if_pos (Or.inr hlen), hcs]
  · intro hlen hpos
    rw [hstep, if_neg (by push_neg; exact ⟨by omega, hlen⟩), hu]
  · intro hlen hzero
    rw [hstep, if_pos (Or.inl hzero), hcs, hzero]
    simp

/-- Witness for C5: the general clauses applied at the concrete tokens
`"4s"` (lengthed), `"2H"` (expanded) and `"0H"` (zero count). -/
theorem C5_format_widths_amended_witness :
    pySizes ['4', 's'] = .ok [4]
    ∧ pySizes ['2', 'H'] = .ok [2, 2]
    ∧ pySizes ['0', 'H'] = .ok [0] := by
  refine ⟨?_, ?_, ?_⟩
  · exact (C5_format_widths_amended.2 ['4'] 's' 1 (by decide) (by decide)
      (by decide) (by decide) (by decide)).1 (by decide)
  · exact (C5_format_widths_amended.2 ['2'] 'H' 2 (by decide) (by decide)
      (by decide) (by decide) (by decide)).2.1 (by decide) (by decide)
  · exact (C5_format_widths_amended.2 ['0'] 'H' 2 (by decide) (by decide)
      (by decide) (by decide) (by decide)).2.2 (by decide) (by decide)

/-- C2 (refuted, code bug): the claim says every `Result` satisfies
`datasize == len(data)`, in particular for `Array.value` with a
variable-size element codec and trailing bytes.  Exactly there the
invariant breaks: `Array(VarSizeString(), n=1)` decoding the encoding of
`["a"]` followed by one trailing byte returns the untrimmed 6-byte buffer
as `data` but reports `datasize = 5`. -/
theorem C2_array_result_datasize_mismatch :
    wfB (.array (.varSizeString defaultIntC) (some 1)) = true
    ∧ ∃ r : PyResult,
        contValue (.array (.varSizeString defaultIntC) (some 1))
            [1, 0, 0, 0, 97, 120] false = .ok r
        ∧ r.datasize ≠ (r.data.length : Int) := by
  refine ⟨rfl, ⟨.seq [.str [97]], [1, 0, 0, 0, 97, 120], 5, .node [.node [.i 4, .i 1]]⟩,
          ?_, by decide⟩
  simp only [contValue]; rfl

/-- C3 (refuted, code bug): the claim says `Array(e, n)` with a fixed-size
element codec constructs a fixed codec with `datasize = n * e.datasize`.
Instead, `Integer(2)` constructs fine, but `Array(Integer(2), n=3)` raises
`AttributeError` at construction time: the line
`self._datasize = self.n * elementc.size` refers to a `size` attribute that
no container class defines. -/
theorem C3_fixed_array_construction_crashes :
    integerInit 2 false none = .ok ⟨2, false, .lt⟩
    ∧ arrayInit (.integer ⟨2, false, .lt⟩) (some 3) = .error .attributeError :=
  ⟨rfl, rfl⟩

/-- C4 (refuted, code bug): the claim says a variable codec decoding
`encode(v).data ++ extra` with `is_entire=False` reports
`datasize = encode(v).datasize`.  For `VarSizeArray(VarSizeString())` on
`encode(["a"]).data ++ b"x"` the decoded value is still `["a"]`, but the
variable-element path sets `datasize = len(data)`, the whole 10-byte
buffer, instead of the 9 bytes of the encoding. -/
theorem C4_varsizearray_prefix_datasize_wrong :
    ∃ re rd : PyResult,
      contData (.varSizeArray (.varSizeString defaultIntC) defaultIntC)
          (.seq [.str [97]]) = .ok re
      ∧ contValue (.varSizeArray (.varSizeString defaultIntC) defaultIntC)
          (re.data ++ [120]) false = .ok rd
      ∧ rd.value = re.value
      ∧ re.datasize = 9 ∧ rd.datasize = 10 := by
  refine ⟨⟨.seq [.str [97]], [1, 0, 0, 0, 1, 0, 0, 0, 97], 9,
            .node [.i 4, .node [.node [.i 4, .i 1]]]⟩,
          ⟨.seq [.str [97]], [1, 0, 0, 0, 1, 0, 0, 0, 97, 120], 10,
            .node [.i 4, .node [.node [.i 4, .i 1]]]⟩, ?_, ?_, rfl, rfl, rfl⟩
  · simp only [contData, exMapM]; rfl
  · simp only [contValue, vwalk, exMapM]; rfl

/-- C5 counterexample: the claim says that for non-lengthed type characters
a count prefix produces `count` independent fields, but the format `"0H"`
produces one field of width `0` (the `not n` branch of `iterinst`), not
zero fields. -/
theorem C5_zero_count_counterexample :
    pySizes ['0', 'H'] = .ok [0] ∧ ([0] : List Nat) ≠ [] :=
  ⟨rfl, by decide⟩

/-- C6 (refuted, code bug): the claim says the calculator raises
`InvalidFormatError` for a byte-order marker at any position other than 0.
In fact the guard `if i > 0` of `iterinst` is dead code (`i` is always `0`
when a marker is tested), so `"H<H"` is accepted silently, the `<` simply
becoming the new active mode; and an unrecognized type character raises the
`struct` module error, not `InvalidStructFormatError` (which no code path
raises). -/
theorem C6_misplaced_marker_accepted :
    pySizes ['H', '<', 'H'] = .ok [2, 2]
    ∧ pySizes ['z'] = .error .structError :=
  ⟨rfl, rfl⟩

/-- C7 (confirmed): `StoppedString` decode with `is_entire=False` consumes
the shortest prefix of the input ending with the terminator:
`StoppedString(stop=b'\x00').value(b'hi\x00extra', is_entire=False)` returns
the value `"hi"` with datasize 3; every successful decode consumes the
least terminator-closed prefix; and when no prefix of the input ends with
the terminator the call raises `NotStoppedError`. -/
theorem C7_terminated_shortest_match :
    (contValue (.stoppedString [0]) [104, 105, 0, 101, 120, 116, 114, 97] false
      = .ok ⟨.str [104, 105], [104, 105, 0], 3, .node [.i 2, .i 1]⟩)
    ∧ (∀ (stop data : List Nat) (r : PyResult),
        contValue (.stoppedString stop) data false = .ok r →
        ∃ l : Nat, r.data = data.take l ∧ r.datasize = (l : Int)
          ∧ pyEndsWith (data.take l) stop = true
          ∧ ∀ m, m < l → pyEndsWith (data.take m) stop = false)
    ∧ (∀ stop data : List Nat,
        (∀ l, l ≤ data.length → pyEndsWith (data.take l) stop = false) →
        contValue (.stoppedString stop) data false = .error .notStopped) := by
  refine ⟨by simp only [contValue]; rfl, ?_, ?_⟩
  · intro stop data r h
    simp only [contValue, Bool.false_eq_true, if_false] at h
    split at h
    · exact absurd h (by simp)
    · rename_i l hfs
      obtain ⟨-, -, h3, h4⟩ := scanStop_some_spec stop data _ 0 l hfs
      split at h
      · rename_i s hu
        cases h
        exact ⟨l, rfl, rfl, h3, fun m hm => h4 m (Nat.zero_le m) hm⟩
      · exact absurd h (by simp)
  · intro stop data hnone
    have hfs : firstStopLen stop data = none :=
      scanStop_eq_none stop data (data.length + 1) 0
        (fun m _ hm2 => hnone m (by omega))
    simp only [contValue, Bool.false_eq_true, if_false, firstStopLen] at hfs ⊢
    rw [hfs]

/-- Witness for C7: the general clauses applied at the concrete inputs of
the claim (the example buffer, and `b"hi"` which contains no
terminator-closed prefix). -/
theorem C7_terminated_shortest_match_witness :
    (∃ l : Nat, ([104, 105, 0] : List Nat)
        = List.take l [104, 105, 0, 101, 120, 116, 114, 97]
      ∧ (3 : Int) = (l : Int)
      ∧ pyEndsWith (List.take l [104, 105, 0, 101, 120, 116, 114, 97]) [0] = true
      ∧ ∀ m, m < l → pyEndsWith (List.take m [104, 105, 0, 101, 120, 116, 114, 97]) [0] = false)
    ∧ contValue (.stoppedString [0]) [104, 105] false = .error .notStopped :=
  ⟨C7_terminated_shortest_match.2.1 [0] _ _ C7_terminated_shortest_match.1,
   C7_terminated_shortest_match.2.2 [0] [104, 105] (by decide)⟩

/-- C8 counterexample: a `Row` with implicit arity whose single element is
`Integer(2)` reports `fixed == False` yet its `datasize` attribute is
defined (`2`), because `Row.__init__` stores `_datasize` whenever all
elements are fixed, regardless of `n`. -/
theorem C8_implicit_row_has_datasize :
    fixedB (.row [.integer ⟨2, false, .lt⟩] false) = false
    ∧ datasizeAttr (.row [.integer ⟨2, false, .lt⟩] false) = some 2 :=
  ⟨rfl, rfl⟩

/-- C8 (corrected): `datasize` is defined iff the codec is fixed OR it is a
`Row` with implicit arity and all-fixed elements; equivalently, `fixed`
holds iff `datasize` is defined and the codec is not an implicit-arity row.
A row constructed without an explicit `n` indeed always reports
`fixed == False` (but its `datasize` may still be defined). -/
theorem C8_fixed_iff_datasize_outside_implicit_rows :
    (∀ c : Cont, fixedB c = ((datasizeAttr c).isSome && !implicitRow c))
    ∧ (∀ cs : List Cont, fixedB (.row cs false) = false) := by
  constructor
  · intro c
    cases c <;> simp [fixedB, datasizeAttr, implicitRow, Bool.and_comm]
  · intro cs
    simp [fixedB]

/-- C9 (refuted, code bug): the claim says constructing a
`FixedSizeStructBasedContainer` with a `fmt_first` outside `'<>='` raises
immediately.  The constructor computes the error arguments but the `raise`
statement is missing, so `FixedSizeStructBasedContainer('H', fmt_first='!')`
constructs successfully (format `'!H'`, datasize 2). -/
theorem C9_invalid_fmt_first_accepted :
    fsbcInit ['H'] (some '!') = .ok ⟨['H'], '!', [2], 2⟩ :=
  rfl

/-- C10 (confirmed): `StandardDictionary.value` discards its `is_entire`
argument when delegating to `Array.value`, so decoding with
`is_entire=True` returns exactly the same result (or error) as with
`is_entire=False`, and trailing bytes are never rejected. -/
theorem C10_standarddictionary_ignores_is_entire :
    ∀ (kc vc : Cont) (data : List Nat) (b : Bool),
      contValue (.standardDictionary kc vc) data b
        = contValue (.standardDictionary kc vc) data false := by
  intro kc vc data b
  simp only [contValue]

end Structtools

namespace Structtools

theorem exBind_ok {α β : Type} (a : α) (f : α → Except Err β) :
    ((Except.ok a : Except Err α) >>= f) = f a := rfl

theorem walkOpen_decodeR (f : List Nat → Except Err PyResult) :
    ∀ (rs : List PyResult) (fuel : Nat) (data : List Nat) (i : Int)
      (nOpt : Option Nat) (count : Nat) (after : List Nat),
      (∀ r ∈ rs, r.data ≠ []) →
      (∀ r ∈ rs, ∀ tail, ∃ rd, f (r.data ++ tail) = .ok rd
        ∧ rd.value = r.value ∧ rd.datasize = ((r.data).length : Int)) →
      0 ≤ i →
      pyDropI i data = (rs.map (·.data)).flatten ++ after →
      ((nOpt = none ∧ after = []) ∨ nOpt = some (count + rs.length)) →
      rs.length + 1 ≤ fuel →
      ∃ rds, walkOpen f fuel data i nOpt count = .ok rds
        ∧ rds.map (·.value) = rs.map (·.value)
        ∧ rds.map (·.datasize) = rs.map (fun r => ((r.data.length : Int))) := by
  intro rs
  induction rs with
  | nil =>
    intro fuel data i nOpt count after _ _ hi hdrop hmode hfuel
    obtain ⟨fu, rfl⟩ : ∃ fu, fuel = fu + 1 := ⟨fuel - 1, by omega⟩
    refine ⟨[], ?_, rfl, rfl⟩
    rcases hmode with ⟨rfl, rfl⟩ | rfl
    · rw [walkOpen, if_pos (by simpa using hdrop)]
    · rw [walkOpen]
      by_cases hafter : pyDropI i data = []
      · rw [if_pos hafter]
      · rw [if_neg hafter, if_pos (by simp)]
  | cons p ps ih =>
    intro fuel data i nOpt count after hne hf hi hdrop hmode hfuel
    obtain ⟨fu, rfl⟩ : ∃ fu, fuel = fu + 1 := ⟨fuel - 1, by omega⟩
    have hpne : p.data ≠ [] := hne p (by simp)
    have harg : pyDropI i data = p.data ++ ((ps.map (·.data)).flatten ++ after) := by
      rw [hdrop]
      simp
    have hdropne : pyDropI i data ≠ [] := by
      rw [harg]
      intro hx
      rcases List.append_eq_nil.mp hx with ⟨h1, -⟩
      exact hpne h1
    have hcount : ¬(nOpt = some count) := by
      rcases hmode with ⟨rfl, -⟩ | rfl
      · simp
      · simp only [Option.some_inj, ne_eq]
        intro hx
        simp at hx
    obtain ⟨rd, hrd, hval, hds⟩ := hf p (by simp) ((ps.map (·.data)).flatten ++ after)
    obtain ⟨rds, hw, hv, hd⟩ := ih fu data (i + ((p.data).length : Int)) nOpt (count + 1) after
      (fun q hq => hne q (by simp [hq]))
      (fun q hq tail => hf q (by simp [hq]) tail)
      (by omega)
      (by rw [pyDropI_add i (p.data).length data hi, harg, List.drop_left])
      (by
        rcases hmode with ⟨rfl, rfl⟩ | rfl
        · exact Or.inl ⟨rfl, rfl⟩
        · right
          congr 1
          simp
          omega)
      (by simp at hfuel ⊢; omega)
    refine ⟨rd :: rds, ?_, by simp [hval, hv], by simp [hds, hd]⟩
    rw [walkOpen, if_neg hdropne, if_neg hcount, harg, hrd, exBind_ok, hds, hw, exBind_ok]

theorem vwalk_decodeR (f : List Nat → Except Err PyResult) :
    ∀ (rs : List PyResult) (edata : List Nat) (i : Int) (entire : Bool),
      (∀ r ∈ rs, ∀ tail, ∃ rd, f (r.data ++ tail) = .ok rd
        ∧ rd.value = r.value ∧ rd.datasize = ((r.data).length : Int)) →
      0 ≤ i →
      pyDropI i edata = (rs.map (·.data)).flatten →
      ∃ rds, vwalk f rs.length edata i entire = .ok rds
        ∧ rds.map (·.value) = rs.map (·.value)
        ∧ rds.map (·.datasize) = rs.map (fun r => ((r.data.length : Int))) := by
  intro rs
  induction rs with
  | nil =>
    intro edata i entire _ hi hdrop
    refine ⟨[], ?_, rfl, rfl⟩
    rw [show ([] : List PyResult).length = 0 from rfl, vwalk]
    rw [if_neg (by simp at hdrop; simp [hdrop])]
  | cons p ps ih =>
    intro edata i entire hf hi hdrop
    have harg : pyDropI i edata = p.data ++ (ps.map (·.data)).flatten := by
      rw [hdrop]
      simp
    obtain ⟨rd, hrd, hval, hds⟩ := hf p (by simp) (ps.map (·.data)).flatten
    obtain ⟨rds, hw, hv, hd⟩ := ih edata (i + ((p.data).length : Int)) entire
      (fun q hq tail => hf q (by simp [hq]) tail)
      (by omega)
      (by rw [pyDropI_add i (p.data).length edata hi, harg, List.drop_left])
    refine ⟨rd :: rds, ?_, by simp [hval, hv], by simp [hds, hd]⟩
    rw [show (p :: ps).length = ps.length + 1 from rfl, vwalk, harg, hrd, exBind_ok, hds, hw,
      exBind_ok]

theorem exMapM_entireR (e : Cont) :
    ∀ (rs : List PyResult),
      (∀ r ∈ rs, EntireOK e r.value r.data) →
      ∃ rds, exMapM (fun b => contValue e b true) (rs.map (·.data)) = .ok rds
        ∧ rds.map (·.value) = rs.map (·.value)
        ∧ rds.map (·.datasize) = rs.map (fun r => ((r.data.length : Int))) := by
  intro rs
  induction rs with
  | nil => exact fun _ => ⟨[], rfl, rfl, rfl⟩
  | cons p ps ih =>
    intro hf
    obtain ⟨rd, hrd, hval, hds⟩ := hf p (by simp)
    obtain ⟨rds, hw, hv, hd⟩ := ih (fun q hq => hf q (by simp [hq]))
    refine ⟨rd :: rds, ?_, by simp [hval, hv], by simp [hds, hd]⟩
    show exMapM (fun b => contValue e b true) (p.data :: ps.map (·.data)) = .ok (rd :: rds)
    rw [exMapM, hrd, exBind_ok, hw, exBind_ok]
end Structtools

namespace Structtools

theorem w_le_ws_of_mem (c : Cont) (cs : List Cont) (h : c ∈ cs) : w c ≤ ws cs := by
  induction cs with
  | nil => simp at h
  | cons d t ih =>
    rw [ws_cons]
    rcases List.mem_cons.mp h with rfl | hm
    · omega
    · have := ih hm
      omega

theorem wfBL_mem (cs : List Cont) (c : Cont) (h : wfBL cs = true) (hm : c ∈ cs) :
    wfB c = true := by
  induction cs with
  | nil => simp at hm
  | cons d t ih =>
    simp only [wfBL, Bool.and_eq_true] at h
    rcases List.mem_cons.mp hm with rfl | hm'
    · exact h.1
    · exact ih h.2 hm'

theorem goodElemL_mem (cs : List Cont) (c : Cont) (h : goodElemL cs = true) (hm : c ∈ cs) :
    goodElem c = true := by
  induction cs with
  | nil => simp at hm
  | cons d t ih =>
    simp only [goodElemL, Bool.and_eq_true] at h
    rcases List.mem_cons.mp hm with rfl | hm'
    · exact h.1
    · exact ih h.2 hm'

theorem pyEndsWith_append (a s : List Nat) : pyEndsWith (a ++ s) s = true := by
  simp [pyEndsWith, List.isSuffixOf, List.isPrefixOf_iff_prefix]

theorem firstStopLen_extend (stop base tail : List Nat) (l : Nat)
    (h : firstStopLen stop base = some l) :
    firstStopLen stop (base ++ tail) = some l := by
  rw [firstStopLen] at h
  obtain ⟨h1, h2, h3, h4⟩ := scanStop_some_spec stop base (base.length + 1) 0 l h
  rw [firstStopLen]
  apply scanStop_eq_some
  · omega
  · simp only [List.length_append]
    omega
  · rw [List.take_append_of_le_length (by omega)]
    exact h3
  · intro m hm1 hm2
    rw [List.take_append_of_le_length (by omega)]
    exact h4 m hm1 hm2

theorem encok_integer (ic : IntC) (v : Value) (r : PyResult) (hk : 1 ≤ ic.size)
    (hD : contData (.integer ic) v = .ok r) :
    EncOK (.integer ic) v r := by
  have hD' : intCData ic v = .ok r := by
    rw [contData] at hD
    exact hD
  cases v with
  | str s => simp [intCData] at hD'
  | seq vs => simp [intCData] at hD'
  | dict ps => simp [intCData] at hD'
  | int i =>
    obtain ⟨hr, hlen, hp⟩ := intCData_shape ic i r hD'
    refine ⟨by rw [hr], ?_, ?_, ?_, ?_, ?_⟩
    · rw [hr, hlen]
    · intro _
      simp [datasizeAttr, hlen]
    · intro _
      intro hx
      rw [hx] at hlen
      simp at hlen
      omega
    · intro _ tail
      refine ⟨⟨.int i, r.data, (ic.size : Int), .i ic.size⟩, ?_, rfl, by rw [hlen]⟩
      rw [contValue]
      exact intC_prefix ic i r hk hD' tail
    · intro _
      constructor
      · refine ⟨⟨.int i, r.data, (ic.size : Int), .i ic.size⟩, ?_, rfl, by rw [hlen]⟩
        rw [contValue]
        have h1 := intC_prefix ic i r hk hD' []
        simpa using h1
      · refine ⟨⟨.int i, r.data, (ic.size : Int), .i ic.size⟩, ?_, rfl, by rw [hlen]⟩
        rw [contValue]
        exact intC_entire ic i r hk hD'


theorem exBind_err {α β : Type} (e : Err) (f : α → Except Err β) :
    ((Except.error e : Except Err α) >>= f) = .error e := rfl

theorem encok_vss (sc : IntC) (v : Value) (r : PyResult) (hk : 1 ≤ sc.size)
    (hD : contData (.varSizeString sc) v = .ok r) :
    EncOK (.varSizeString sc) v r := by
  cases v with
  | int i => rw [contData.eq_def] at hD; simp at hD
  | seq vs => rw [contData.eq_def] at hD; simp at hD
  | dict ps => rw [contData.eq_def] at hD; simp at hD
  | str s =>
    rw [contData] at hD
    cases henc : utf8Encode s with
    | none => rw [henc] at hD; simp at hD
    | some enc =>
      rw [henc] at hD
      dsimp only at hD
      cases hszr : intCData sc (.int enc.length) with
      | error e => rw [hszr, exBind_err] at hD; exact absurd hD (by simp)
      | ok szr =>
        rw [hszr, exBind_ok] at hD
        injection hD with hr
        obtain ⟨hs, hlen, hp⟩ := intCData_shape sc enc.length szr hszr
        have hszv : szr.datasize = (sc.size : Int) := by rw [hs]
        have hIC := intC_prefix sc enc.length szr hk hszr
        have hdec := utf8Decode_utf8Encode s enc henc
        have hlen2 : ((szr.data ++ enc).length : Int)
            = (sc.size : Int) + (enc.length : Int) := by
          simp [hlen]
        have hdrop : pyDropI (sc.size : Int) (szr.data ++ enc) = enc := by
          rw [pyDropI_natCast, ← hlen, List.drop_left]
        subst hr
        have hPre : PrefixOK (.varSizeString sc) (.str s) (szr.data ++ enc) := by
          intro tail
          refine ⟨⟨.str s, szr.data ++ enc, (sc.size : Int) + (enc.length : Int),
            .node [.i (sc.size : Int), .i (enc.length : Int)]⟩, ?_, rfl, by rw [hlen2]⟩
          rw [contValue, List.append_assoc, hIC (enc ++ tail), exBind_ok]
          dsimp only
          rw [if_neg (by simp), if_neg (by simp)]
          rw [show pyTakeI ((sc.size : Int) + (enc.length : Int))
              (szr.data ++ (enc ++ tail)) = szr.data ++ enc from by
            rw [show (sc.size : Int) + (enc.length : Int)
                = ((sc.size + enc.length : Nat) : Int) by push_cast; ring]
            rw [pyTakeI_natCast, ← List.append_assoc]
            rw [show sc.size + enc.length = (szr.data ++ enc).length by simp [hlen]]
            exact List.take_left (szr.data ++ enc) tail]
          rw [hdrop, hdec]
        refine ⟨rfl, ?_, ?_, ?_, fun _ => hPre, ?_⟩
        · show szr.datasize + (enc.length : Int) = ((szr.data ++ enc).length : Int)
          rw [hszv, hlen2]
        · intro h
          simp [fixedB, datasizeAttr] at h
        · intro _ hx
          have := congrArg List.length hx
          simp [hlen] at this
          omega
        · intro _
          constructor
          · obtain ⟨rd, h1, h2, h3⟩ := hPre []
            rw [List.append_nil] at h1
            exact ⟨rd, h1, h2, h3⟩
          · refine ⟨⟨.str s, szr.data ++ enc, (sc.size : Int) + (enc.length : Int),
              .node [.i (sc.size : Int), .i (enc.length : Int)]⟩, ?_, rfl, by rw [hlen2]⟩
            rw [contValue, hIC enc, exBind_ok]
            dsimp only
            rw [if_neg (by rw [hlen2]; simp), if_pos rfl]
            rw [hdrop, hdec]

theorem encok_ss (stop : List Nat) (v : Value) (r : PyResult)
    (hgv : goodVal (.stoppedString stop) v = true)
    (hD : contData (.stoppedString stop) v = .ok r) :
    EncOK (.stoppedString stop) v r := by
  cases v with
  | int i => rw [contData.eq_def] at hD; simp at hD
  | seq vs => rw [contData.eq_def] at hD; simp at hD
  | dict ps => rw [contData.eq_def] at hD; simp at hD
  | str s =>
    rw [contData] at hD
    cases henc : utf8Encode s with
    | none => rw [henc] at hD; simp at hD
    | some enc =>
      rw [henc] at hD
      dsimp only at hD
      injection hD with hr
      rw [goodVal, henc] at hgv
      dsimp only at hgv
      rw [beq_iff_eq] at hgv
      have hdec := utf8Decode_utf8Encode s enc henc
      have htk : pyTakeI (((enc.length + stop.length : Nat) : Int) - (stop.length : Int))
          (enc ++ stop) = enc := by
        rw [show (((enc.length + stop.length : Nat) : Int) - (stop.length : Int))
            = ((enc.length : Nat) : Int) by push_cast; ring]
        rw [pyTakeI_natCast]
        exact List.take_left enc stop
      subst hr
      have hPre : ¬ stop = [] → PrefixOK (.stoppedString stop) (.str s) (enc ++ stop) := by
        intro _ tail
        have hfs := firstStopLen_extend stop (enc ++ stop) tail _ hgv
        refine ⟨⟨.str s, enc ++ stop, ((enc.length + stop.length : Nat) : Int),
          .node [.i (((enc.length + stop.length : Nat) : Int) - (stop.length : Int)),
            .i (stop.length : Int)]⟩, ?_, rfl, by simp⟩
        rw [contValue, if_neg (by simp), hfs]
        dsimp only
        rw [show ((enc ++ stop) ++ tail).take (enc.length + stop.length) = enc ++ stop from by
          rw [show enc.length + stop.length = (enc ++ stop).length by simp]
          exact List.take_left (enc ++ stop) tail]
        rw [htk, hdec]
      refine ⟨rfl, by simp, ?_, ?_, ?_, ?_⟩
      · intro h
        simp [fixedB, datasizeAttr] at h
      · intro hg hx
        simp only [goodElem, Bool.not_eq_true'] at hg
        rcases List.append_eq_nil.mp hx with ⟨-, h2⟩
        rw [h2] at hg
        simp at hg
      · intro hg
        apply hPre
        simp only [goodElem, Bool.not_eq_true'] at hg
        intro hx
        rw [hx] at hg
        simp at hg
      · intro _
        constructor
        · refine ⟨⟨.str s, enc ++ stop, ((enc.length + stop.length : Nat) : Int),
            .node [.i (((enc.length + stop.length : Nat) : Int) - (stop.length : Int)),
              .i (stop.length : Int)]⟩, ?_, rfl, by simp⟩
          rw [contValue, if_neg (by simp), hgv]
          dsimp only
          rw [show (enc ++ stop).take (enc.length + stop.length) = enc ++ stop from by
            rw [show enc.length + stop.length = (enc ++ stop).length by simp]
            simp]
          rw [htk, hdec]
        · refine ⟨⟨.str s, enc ++ stop, (((enc ++ stop).length : Nat) : Int),
            .node [.i ((((enc ++ stop).length : Nat) : Int) - (stop.length : Int)),
              .i (stop.length : Int)]⟩, ?_, rfl, rfl⟩
          rw [contValue, if_pos rfl, if_neg (by simp [pyEndsWith_append])]
          rw [show pyTakeI ((((enc ++ stop).length : Nat) : Int) - (stop.length : Int))
              (enc ++ stop) = enc from by
            rw [show ((((enc ++ stop).length : Nat) : Int) - (stop.length : Int))
                = ((enc.length : Nat) : Int) by push_cast; simp]
            rw [pyTakeI_natCast]
            exact List.take_left enc stop]
          rw [hdec]

end Structtools

namespace Structtools

theorem exMapM_contData_facts (e : Cont)
    (IH : ∀ v r, wfv v = true → goodVal e v = true → contData e v = .ok r → EncOK e v r) :
    ∀ (vs : List Value) (rs : List PyResult),
      wfvL vs = true → goodValL e vs = true →
      exMapM (fun x => contData e x) vs = .ok rs →
      rs.map (·.value) = vs ∧ ∀ r ∈ rs, EncOK e r.value r := by
  intro vs
  induction vs with
  | nil =>
    intro rs _ _ hM
    rw [exMapM] at hM
    injection hM with h
    subst h
    exact ⟨rfl, by simp⟩
  | cons v vs ih =>
    intro rs hwf hgv hM
    rw [exMapM] at hM
    cases hr : contData e v with
    | error err => rw [hr, exBind_err] at hM; exact absurd hM (by simp)
    | ok r =>
      rw [hr, exBind_ok] at hM
      cases hrest : exMapM (fun x => contData e x) vs with
      | error err => rw [hrest, exBind_err] at hM; exact absurd hM (by simp)
      | ok rest =>
        rw [hrest, exBind_ok] at hM
        injection hM with h
        subst h
        simp only [wfvL, Bool.and_eq_true] at hwf
        simp only [goodValL, Bool.and_eq_true] at hgv
        have hE := IH v r hwf.1 hgv.1 hr
        obtain ⟨hmap, hall⟩ := ih rest hwf.2 hgv.2 hrest
        constructor
        · simp only [List.map_cons, hmap]
          rw [hE.1]
        · intro r' hmem
          rcases List.mem_cons.mp hmem with rfl | hm
          · rw [hE.1]
            exact hE
          · exact hall r' hm

theorem rowDataGo_facts :
    ∀ (cs : List Cont) (vs : List Value) (rs : List PyResult),
      (∀ c ∈ cs, ∀ v r, wfv v = true → goodVal c v = true → contData c v = .ok r →
        EncOK c v r) →
      wfvL vs = true → goodValS cs vs = true →
      rowDataGo cs vs = .ok rs →
      rs.map (·.value) = vs
      ∧ List.Forall₂ (fun (c : Cont) (r : PyResult) => EncOK c r.value r) cs rs
      ∧ ((dsRow cs).isSome = true →
          dsRow cs = some ((rs.map (·.data)).flatten.length)) := by
  intro cs
  induction cs with
  | nil =>
    intro vs rs _ _ _ hM
    cases vs with
    | nil =>
      rw [rowDataGo] at hM
      injection hM with h
      subst h
      exact ⟨rfl, .nil, fun _ => rfl⟩
    | cons v vs => rw [rowDataGo] at hM; exact absurd hM (by simp)
  | cons c cs ih =>
    intro vs rs hIH hwf hgv hM
    cases vs with
    | nil => rw [rowDataGo] at hM; exact absurd hM (by simp)
    | cons v vs =>
      rw [rowDataGo] at hM
      cases hr : contData c v with
      | error err => rw [hr, exBind_err] at hM; exact absurd hM (by simp)
      | ok r =>
        rw [hr, exBind_ok] at hM
        cases hrest : rowDataGo cs vs with
        | error err => rw [hrest, exBind_err] at hM; exact absurd hM (by simp)
        | ok rest =>
          rw [hrest, exBind_ok] at hM
          injection hM with h
          subst h
          simp only [wfvL, Bool.and_eq_true] at hwf
          simp only [goodValS, Bool.and_eq_true] at hgv
          have hE := hIH c (by simp) v r hwf.1 hgv.1 hr
          obtain ⟨hmap, hF, hds⟩ :=
            ih vs rest (fun c' hc' => hIH c' (by simp [hc'])) hwf.2 hgv.2 hrest
          refine ⟨by simp [hmap, hE.1], .cons (by rw [hE.1]; exact hE) hF, ?_⟩
          intro hsome
          by_cases hfx : fixedB c = true
          · rw [dsRow_cons, if_pos hfx] at hsome ⊢
            have hda := hE.2.2.1 hfx
            rw [hda] at hsome ⊢
            cases hdr : dsRow cs with
            | none => rw [hdr] at hsome; simp at hsome
            | some b =>
              have h2 := hds (by rw [hdr]; rfl)
              rw [hdr] at h2
              injection h2 with h2'
              simp [h2']
          · rw [dsRow_cons, if_neg hfx] at hsome
            simp at hsome

theorem forall2_encok_prefix :
    ∀ (cs : List Cont) (rs : List PyResult),
      List.Forall₂ (fun (c : Cont) (r : PyResult) => EncOK c r.value r) cs rs →
      goodElemL cs = true →
      List.Forall₂ (fun (c : Cont) (r : PyResult) => PrefixOK c r.value r.data) cs rs := by
  intro cs rs h
  induction h with
  | nil => exact fun _ => .nil
  | @cons c r cs' rs' h1 h2 ih =>
    intro hg
    simp only [goodElemL, Bool.and_eq_true] at hg
    exact .cons (h1.2.2.2.2.1 hg.1) (ih hg.2)

theorem rowValueGo_decodeF :
    ∀ (cs : List Cont) (rs : List PyResult),
      List.Forall₂ (fun (c : Cont) (r : PyResult) => PrefixOK c r.value r.data) cs rs →
      ∀ (data : List Nat) (i : Int) (entire : Bool) (after : List Nat),
      0 ≤ i →
      pyDropI i data = (rs.map (·.data)).flatten ++ after →
      (entire = true → after = []) →
      ∃ rds, rowValueGo cs data i entire = .ok rds
        ∧ rds.map (·.value) = rs.map (·.value)
        ∧ rds.map (·.datasize) = rs.map (fun r => ((r.data.length : Int))) := by
  intro cs rs h
  induction h with
  | nil =>
    intro data i entire after _ hdrop hafter
    refine ⟨[], ?_, rfl, rfl⟩
    rw [rowValueGo]
    rw [if_neg ?_]
    intro ⟨he, hx⟩
    rw [hdrop] at hx
    simp [hafter he] at hx
  | @cons c r cs' rs' h1 h2 ih =>
    intro data i entire after hi hdrop hafter
    have harg : pyDropI i data = r.data ++ ((rs'.map (·.data)).flatten ++ after) := by
      rw [hdrop]
      simp
    obtain ⟨rd, hrd, hval, hds⟩ := h1 ((rs'.map (·.data)).flatten ++ after)
    obtain ⟨rds, hw, hv, hd⟩ := ih data (i + ((r.data).length : Int)) entire after
      (by omega)
      (by rw [pyDropI_add i (r.data).length data hi, harg, List.drop_left])
      hafter
    refine ⟨rd :: rds, ?_, by simp [hval, hv], by simp [hds, hd]⟩
    rw [rowValueGo, harg, hrd, exBind_ok, hds, hw, exBind_ok]

end Structtools

namespace Structtools

theorem flatten_const_len (K : Nat) :
    ∀ (ls : List (List Nat)), (∀ x ∈ ls, x.length = K) →
      ls.flatten.length = ls.length * K := by
  intro ls
  induction ls with
  | nil => simp
  | cons x t ih =>
    intro h
    have hx := h x (by simp)
    have ht := ih (fun y hy => h y (by simp [hy]))
    simp only [List.flatten_cons, List.length_append, List.length_cons, hx, ht, Nat.succ_mul]
    omega

theorem sum_len_castR (rs : List PyResult) :
    (rs.map (fun r => ((r.data.length : Int)))).sum
      = (((rs.map (·.data)).flatten.length : Nat) : Int) := by
  rw [show rs.map (fun r => ((r.data.length : Int)))
      = (rs.map (·.data)).map (fun x => ((x.length : Int))) by rw [List.map_map]; rfl]
  exact sum_len_cast (rs.map (·.data))

theorem trimData_array (e : Cont) (n : Option Nat) (bs : List Nat) (entire : Bool) :
    trimData (.array e n) bs entire = .ok bs := by
  rw [trimData, if_neg (by simp [fixedB, datasizeAttr])]

theorem encok_array (e : Cont) (n : Option Nat)
    (IH : ∀ v r, wfv v = true → goodVal e v = true → contData e v = .ok r → EncOK e v r)
    (v : Value) (r : PyResult)
    (hwfB : wfB (.array e n) = true) (hwfv : wfv v = true)
    (hgv : goodVal (.array e n) v = true)
    (hD : contData (.array e n) v = .ok r) :
    EncOK (.array e n) v r := by
  cases v with
  | int i => rw [contData.eq_def] at hD; simp at hD
  | str s => rw [contData.eq_def] at hD; simp at hD
  | dict ps => rw [contData.eq_def] at hD; simp at hD
  | seq vs =>
    rw [contData.eq_def] at hD
    dsimp only at hD
    rw [wfv] at hwfv
    rw [goodVal] at hgv
    simp only [wfB, Bool.and_eq_true] at hwfB
    obtain ⟨hwfe, hn⟩ := hwfB
    split at hD
    · exact absurd hD (by simp)
    · rename_i hbad
      cases hM : exMapM (fun x => contData e x) vs with
      | error err => rw [hM, exBind_err] at hD; exact absurd hD (by simp)
      | ok es =>
        rw [hM, exBind_ok] at hD
        injection hD with hr
        subst hr
        obtain ⟨hmap, hall⟩ := exMapM_contData_facts e IH vs es hwfv hgv hM
        have hlen : es.length = vs.length := by rw [← hmap]; simp
        have hcnt : ∀ k, n = some k → vs.length = k := by
          intro k hk
          subst hk
          simpa using hbad
        have hne : goodElem e = true → ∀ x ∈ es.map (·.data), x ≠ [] := by
          intro hge x hx
          obtain ⟨r', hr', rfl⟩ := List.mem_map.mp hx
          exact (hall r' hr').2.2.2.1 hge
        have hpre : goodElem e = true →
            ∀ r' ∈ es, ∀ tail, ∃ rd, contValue e (r'.data ++ tail) false = .ok rd
              ∧ rd.value = r'.value ∧ rd.datasize = ((r'.data).length : Int) :=
          fun hge r' hr' => (hall r' hr').2.2.2.2.1 hge
        have hent : goodElem e = true → ∀ r' ∈ es, EntireOK e r'.value r'.data :=
          fun hge r' hr' => ((hall r' hr').2.2.2.2.2 (goodElem_goodTop e hge)).2
        have hwalkdec : goodElem e = true → fixedB e = false →
            ∀ (b : Bool) (tail : List Nat), (n = none → tail = []) →
            ∃ rd, contValue (.array e n) ((es.map (·.data)).flatten ++ tail) b = .ok rd
              ∧ rd.value = Value.seq vs
              ∧ rd.datasize = (((es.map (·.data)).flatten.length : Nat) : Int) := by
          intro hge hfx b tail hnt
          have hfL := length_le_flatten (es.map (·.data)) (hne hge)
          simp only [List.length_map] at hfL
          cases n with
          | none =>
            have htail := hnt rfl
            subst htail
            obtain ⟨rds, hwR, hvR, hdR⟩ := walkOpen_decodeR (fun d => contValue e d false) es
              (((es.map (fun q : PyResult => q.data)).flatten ++ []).length + 1 + 0)
              ((es.map (fun q : PyResult => q.data)).flatten ++ []) 0 none 0 []
              (fun r' hr' => (hall r' hr').2.2.2.1 hge)
              (hpre hge) (le_refl 0) (by rw [pyDropI_zero]) (Or.inl ⟨rfl, rfl⟩)
              (by simp only [List.length_append, List.length_nil]; omega)
            refine ⟨⟨.seq (rds.map (·.value)), (es.map (·.data)).flatten ++ [],
              (rds.map (·.datasize)).sum, .node (rds.map (·.subsize))⟩, ?_, ?_, ?_⟩
            · rw [contValue.eq_def]
              dsimp only
              rw [trimData_array, exBind_ok]
              rw [if_neg (by simp [hfx])]
              rw [hwR, exBind_ok]
            · show Value.seq (rds.map (·.value)) = Value.seq vs
              rw [hvR, hmap]
            · show (rds.map (·.datasize)).sum
                = (((es.map (·.data)).flatten.length : Nat) : Int)
              rw [hdR, sum_len_castR]
          | some k =>
            have hkes : es.length = k := by rw [hlen]; exact hcnt k rfl
            obtain ⟨rds, hwR, hvR, hdR⟩ := walkOpen_decodeR (fun d => contValue e d false) es
              (((es.map (fun q : PyResult => q.data)).flatten ++ tail).length + 1 + k)
              ((es.map (fun q : PyResult => q.data)).flatten ++ tail) 0 (some k) 0 tail
              (fun r' hr' => (hall r' hr').2.2.2.1 hge)
              (hpre hge) (le_refl 0) (by rw [pyDropI_zero])
              (Or.inr (by rw [hkes, Nat.zero_add]))
              (by simp only [List.length_append]; omega)
            refine ⟨⟨.seq (rds.map (·.value)), (es.map (·.data)).flatten ++ tail,
              (rds.map (·.datasize)).sum, .node (rds.map (·.subsize))⟩, ?_, ?_, ?_⟩
            · rw [contValue.eq_def]
              dsimp only
              rw [trimData_array, exBind_ok]
              rw [if_neg (by simp [hfx])]
              rw [hwR, exBind_ok]
            · show Value.seq (rds.map (·.value)) = Value.seq vs
              rw [hvR, hmap]
            · show (rds.map (·.datasize)).sum
                = (((es.map (·.data)).flatten.length : Nat) : Int)
              rw [hdR, sum_len_castR]
        have hfixdec : fixedB e = true →
            ∀ b : Bool,
            ∃ rd, contValue (.array e n) (es.map (·.data)).flatten b = .ok rd
              ∧ rd.value = Value.seq vs
              ∧ rd.datasize = (((es.map (·.data)).flatten.length : Nat) : Int) := by
          intro hfx b
          have hge := fixedB_goodElem e hfx
          rcases es with _ | ⟨r0, es'⟩
          · have hvs : vs = [] := by rw [← hmap]; rfl
            refine ⟨⟨.seq [], [], 0, .node []⟩, ?_, by rw [hvs], by simp⟩
            rw [contValue.eq_def]
            dsimp only
            rw [trimData_array, exBind_ok, if_pos hfx]
            dsimp only [List.map_nil, List.flatten_nil]
            rw [if_neg (by simp)]
            simp [chunksOf, chunksOfGo, exMapM]
            rfl
          · have hK0 : datasizeAttr e = some (r0.data.length) :=
              (hall r0 (by simp)).2.2.1 hfx
            have hr0ne : r0.data ≠ [] := (hall r0 (by simp)).2.2.2.1 hge
            have hKpos : 1 ≤ r0.data.length := by
              cases hx : r0.data with
              | nil => exact absurd hx hr0ne
              | cons a t => simp [hx]
            have hlens : ∀ x ∈ ((r0 :: es').map (·.data)), x.length = r0.data.length := by
              intro x hx
              obtain ⟨r', hr', rfl⟩ := List.mem_map.mp hx
              have h3 := (hall r' hr').2.2.1 hfx
              rw [hK0] at h3
              injection h3 with h3'
              omega
            have hflat : ((r0 :: es').map (·.data)).flatten.length
                = ((r0 :: es').map (·.data)).length * r0.data.length :=
              flatten_const_len r0.data.length _ hlens
            have hchunks : chunksOf r0.data.length ((r0 :: es').map (·.data)).flatten
                = (r0 :: es').map (·.data) :=
              chunksOf_flatten r0.data.length _ hKpos hlens
            obtain ⟨rds, hMR, hvR, hdR⟩ :=
              exMapM_entireR e (r0 :: es') (fun r' hr' => hent hge r' hr')
            refine ⟨⟨.seq (rds.map (·.value)), ((r0 :: es').map (·.data)).flatten,
              (rds.map (·.datasize)).sum, .node (rds.map (·.subsize))⟩, ?_, ?_, ?_⟩
            · rw [contValue.eq_def]
              dsimp only
              rw [trimData_array, exBind_ok, if_pos hfx]
              rw [hK0]
              dsimp only [Option.getD_some]
              rw [if_neg (by rw [hflat]; simp [Nat.mul_mod_left])]
              rw [hchunks, hMR, exBind_ok]
            · show Value.seq (rds.map (·.value)) = Value.seq vs
              rw [hvR, hmap]
            · show (rds.map (·.datasize)).sum
                = ((((r0 :: es').map (·.data)).flatten.length : Nat) : Int)
              rw [hdR, sum_len_castR]
        refine ⟨rfl, rfl, ?_, ?_, ?_, ?_⟩
        · intro h
          simp [fixedB, datasizeAttr] at h
        · intro hge hflatnil
          have hfl : (es.map (·.data)).flatten = [] := hflatnil
          simp only [goodElem, Bool.and_eq_true] at hge
          obtain ⟨k, hk⟩ := Option.isSome_iff_exists.mp hge.1
          have hvk := hcnt k hk
          have h1k : 1 ≤ k := by
            subst hk
            simp only [Bool.and_eq_true, decide_eq_true_eq] at hn
            exact hn.1
          have h2 := length_le_flatten (es.map (·.data)) (hne hge.2)
          simp only [List.length_map] at h2
          rw [hfl] at h2
          simp only [List.length_nil, Nat.le_zero] at h2
          omega
        · intro hge
          simp only [goodElem, Bool.and_eq_true] at hge
          obtain ⟨k, hk⟩ := Option.isSome_iff_exists.mp hge.1
          have hfxe : fixedB e = false := by
            subst hk
            simp only [Bool.and_eq_true, decide_eq_true_eq] at hn
            have := hn.2
            revert this
            cases fixedB e <;> simp
          intro tail
          exact hwalkdec hge.2 hfxe false tail (by rw [hk]; intro h; cases h)
        · intro hgt
          rw [goodTop] at hgt
          by_cases hfx : fixedB e = true
          · exact ⟨(hfixdec hfx false), (hfixdec hfx true)⟩
          · have hfx' : fixedB e = false := by
              revert hfx
              cases fixedB e <;> simp
            have h1 := hwalkdec hgt hfx' false [] (fun _ => rfl)
            have h2 := hwalkdec hgt hfx' true [] (fun _ => rfl)
            simp only [List.append_nil] at h1 h2
            exact ⟨h1, h2⟩

end Structtools

namespace Structtools

theorem fixedB_datasizeAttr (c : Cont) (h : fixedB c = true) :
    (datasizeAttr c).isSome = true := by
  cases c <;> simp_all [fixedB, datasizeAttr]

theorem chunksOf_flatten_ne (K : Nat) (ls : List (List Nat))
    (h : ∀ x ∈ ls, x.length = K) (hne : ∀ x ∈ ls, x ≠ []) :
    chunksOf K ls.flatten = ls := by
  cases ls with
  | nil => rfl
  | cons x t =>
    have h1 := h x (by simp)
    have h2 := hne x (by simp)
    have hK : 1 ≤ K := by
      cases hx : x with
      | nil => exact absurd hx h2
      | cons a s => rw [hx] at h1; simp at h1; omega
    exact chunksOf_flatten K _ hK h

theorem encok_vsa (e : Cont) (sc : IntC)
    (IH : ∀ v r, wfv v = true → goodVal e v = true → contData e v = .ok r → EncOK e v r)
    (v : Value) (r : PyResult)
    (hwfB : wfB (.varSizeArray e sc) = true) (hwfv : wfv v = true)
    (hgv : goodVal (.varSizeArray e sc) v = true)
    (hD : contData (.varSizeArray e sc) v = .ok r) :
    EncOK (.varSizeArray e sc) v r := by
  cases v with
  | int i => rw [contData.eq_def] at hD; simp at hD
  | str s => rw [contData.eq_def] at hD; simp at hD
  | dict ps => rw [contData.eq_def] at hD; simp at hD
  | seq vs =>
    rw [contData.eq_def] at hD
    dsimp only at hD
    rw [wfv] at hwfv
    rw [goodVal] at hgv
    simp only [wfB, Bool.and_eq_true] at hwfB
    obtain ⟨hwfe, hsc⟩ := hwfB
    have hk : 1 ≤ sc.size := by
      by_contra hcon
      have h0 : sc.size = 0 := by omega
      rw [h0] at hsc
      simp at hsc
    cases hszr : intCData sc (.int vs.length) with
    | error err => rw [hszr, exBind_err] at hD; exact absurd hD (by simp)
    | ok szr =>
      rw [hszr, exBind_ok] at hD
      cases hM : exMapM (fun x => contData e x) vs with
      | error err => rw [hM, exBind_err] at hD; exact absurd hD (by simp)
      | ok es =>
        rw [hM, exBind_ok] at hD
        injection hD with hr
        subst hr
        obtain ⟨hs, hszlen, hp⟩ := intCData_shape sc vs.length szr hszr
        obtain ⟨hmap, hall⟩ := exMapM_contData_facts e IH vs es hwfv hgv hM
        have hlen : es.length = vs.length := by rw [← hmap]; simp
        have hIC := intC_prefix sc vs.length szr hk hszr
        have hdropflat : pyDropI (sc.size : Int)
            (szr.data ++ (es.map (·.data)).flatten) = (es.map (·.data)).flatten := by
          rw [pyDropI_natCast, ← hszlen, List.drop_left]
        have hne : goodElem e = true →
            ∀ x ∈ es.map (fun q : PyResult => q.data), x ≠ [] := by
          intro hge x hx
          obtain ⟨r', hr', rfl⟩ := List.mem_map.mp hx
          exact (hall r' hr').2.2.2.1 hge
        have hpre : goodElem e = true →
            ∀ r' ∈ es, ∀ tail, ∃ rd, contValue e (r'.data ++ tail) false = .ok rd
              ∧ rd.value = r'.value ∧ rd.datasize = ((r'.data).length : Int) :=
          fun hge r' hr' => (hall r' hr').2.2.2.2.1 hge
        have hent : goodElem e = true → ∀ r' ∈ es, EntireOK e r'.value r'.data :=
          fun hge r' hr' => ((hall r' hr').2.2.2.2.2 (goodElem_goodTop e hge)).2
        have hfixpre : fixedB e = true → ∀ tail,
            ∃ rd, contValue (.varSizeArray e sc)
              ((szr.data ++ (es.map (·.data)).flatten) ++ tail) false = .ok rd
              ∧ rd.value = Value.seq vs
              ∧ rd.datasize
                = (((szr.data ++ (es.map (·.data)).flatten).length : Nat) : Int) := by
          intro hge' tail
          have hge := fixedB_goodElem e hge'
          obtain ⟨K, hK⟩ := Option.isSome_iff_exists.mp (fixedB_datasizeAttr e hge')
          have hlens : ∀ x ∈ es.map (fun q : PyResult => q.data), x.length = K := by
            intro x hx
            obtain ⟨r', hr', rfl⟩ := List.mem_map.mp hx
            have h3 := (hall r' hr').2.2.1 hge'
            rw [hK] at h3
            injection h3 with h3'
            omega
          have hflatlen : (es.map (fun q : PyResult => q.data)).flatten.length
              = es.length * K := by
            have h4 := flatten_const_len K _ hlens
            simpa using h4
          have hchunks := chunksOf_flatten_ne K _ hlens (hne hge)
          have hds : (sc.size : Int) + (vs.length : Int) * (K : Int)
              = (((szr.data ++ (es.map (·.data)).flatten).length : Nat) : Int) := by
            simp only [List.length_append, hszlen, hflatlen, ← hlen]
            push_cast
            ring
          obtain ⟨rds, hMR, hvR, hdR⟩ := exMapM_entireR e es (hent hge)
          refine ⟨⟨.seq (rds.map (·.value)), szr.data ++ (es.map (·.data)).flatten,
            (((szr.data ++ (es.map (·.data)).flatten).length : Nat) : Int),
            .node [.i (sc.size : Int), .node (rds.map (·.subsize))]⟩, ?_, ?_, rfl⟩
          · rw [contValue.eq_def]
            dsimp only
            rw [List.append_assoc, hIC ((es.map (·.data)).flatten ++ tail), exBind_ok]
            dsimp only
            rw [if_pos hge', hK]
            dsimp only [Option.getD_some]
            rw [if_neg (by simp), if_neg (show ¬((((szr.data ++
                ((es.map (·.data)).flatten ++ tail)).length : Nat) : Int)
                < (sc.size : Int) + (vs.length : Int) * (K : Int)) from by
              rw [hds]
              push_cast
              simp only [List.length_append]
              omega)]
            rw [show pyTakeI ((sc.size : Int) + (vs.length : Int) * (K : Int))
                (szr.data ++ ((es.map (·.data)).flatten ++ tail))
                = szr.data ++ (es.map (·.data)).flatten from by
              rw [hds, pyTakeI_natCast, ← List.append_assoc]
              exact List.take_left _ tail]
            rw [hdropflat, hchunks, hMR, exBind_ok]
          · show Value.seq (rds.map (·.value)) = Value.seq vs
            rw [hvR, hmap]
        have hfixent : fixedB e = true →
            ∃ rd, contValue (.varSizeArray e sc)
              (szr.data ++ (es.map (·.data)).flatten) true = .ok rd
              ∧ rd.value = Value.seq vs
              ∧ rd.datasize
                = (((szr.data ++ (es.map (·.data)).flatten).length : Nat) : Int) := by
          intro hge'
          have hge := fixedB_goodElem e hge'
          obtain ⟨K, hK⟩ := Option.isSome_iff_exists.mp (fixedB_datasizeAttr e hge')
          have hlens : ∀ x ∈ es.map (fun q : PyResult => q.data), x.length = K := by
            intro x hx
            obtain ⟨r', hr', rfl⟩ := List.mem_map.mp hx
            have h3 := (hall r' hr').2.2.1 hge'
            rw [hK] at h3
            injection h3 with h3'
            omega
          have hflatlen : (es.map (fun q : PyResult => q.data)).flatten.length
              = es.length * K := by
            have h4 := flatten_const_len K _ hlens
            simpa using h4
          have hchunks := chunksOf_flatten_ne K _ hlens (hne hge)
          have hds : (sc.size : Int) + (vs.length : Int) * (K : Int)
              = (((szr.data ++ (es.map (·.data)).flatten).length : Nat) : Int) := by
            simp only [List.length_append, hszlen, hflatlen, ← hlen]
            push_cast
            ring
          obtain ⟨rds, hMR, hvR, hdR⟩ := exMapM_entireR e es (hent hge)
          refine ⟨⟨.seq (rds.map (·.value)), szr.data ++ (es.map (·.data)).flatten,
            (((szr.data ++ (es.map (·.data)).flatten).length : Nat) : Int),
            .node [.i (sc.size : Int), .node (rds.map (·.subsize))]⟩, ?_, ?_, rfl⟩
          · rw [contValue.eq_def]
            dsimp only
            rw [hIC ((es.map (·.data)).flatten), exBind_ok]
            dsimp only
            rw [if_pos hge', hK]
            dsimp only [Option.getD_some]
            rw [if_pos rfl, if_neg (by rw [hds]; simp)]
            rw [hdropflat, hchunks, hMR, exBind_ok]
          · show Value.seq (rds.map (·.value)) = Value.seq vs
            rw [hvR, hmap]
        have hvwalkdec : fixedB e = false → goodElem e = true → ∀ b : Bool,
            ∃ rd, contValue (.varSizeArray e sc)
              (szr.data ++ (es.map (·.data)).flatten) b = .ok rd
              ∧ rd.value = Value.seq vs
              ∧ rd.datasize
                = (((szr.data ++ (es.map (·.data)).flatten).length : Nat) : Int) := by
          intro hfx hge b
          obtain ⟨rds, hwV, hvR, hdR⟩ := vwalk_decodeR (fun d => contValue e d false) es
            ((es.map (fun q : PyResult => q.data)).flatten) 0 b
            (hpre hge) (le_refl 0) (by rw [pyDropI_zero])
          refine ⟨⟨.seq (rds.map (·.value)), szr.data ++ (es.map (·.data)).flatten,
            (((szr.data ++ (es.map (·.data)).flatten).length : Nat) : Int),
            .node [.i (sc.size : Int), .node (rds.map (·.subsize))]⟩, ?_, ?_, rfl⟩
          · rw [contValue.eq_def]
            dsimp only
            rw [hIC ((es.map (·.data)).flatten), exBind_ok]
            dsimp only
            rw [if_neg (by simp [hfx])]
            rw [Int.toNat_natCast, hdropflat, ← hlen]
            rw [hwV, exBind_ok]
          · show Value.seq (rds.map (·.value)) = Value.seq vs
            rw [hvR, hmap]
        refine ⟨rfl, rfl, ?_, ?_, ?_, ?_⟩
        · intro h
          simp [fixedB, datasizeAttr] at h
        · intro hge hx
          have hx' : szr.data ++ (es.map (·.data)).flatten = [] := hx
          have h1 := congrArg List.length hx'
          simp [hszlen] at h1
          omega
        · intro hge
          have hge' : fixedB e = true := by simpa [goodElem] using hge
          intro tail
          exact hfixpre hge' tail
        · intro hgt
          rw [goodTop] at hgt
          simp only [Bool.or_eq_true] at hgt
          by_cases hfx : fixedB e = true
          · constructor
            · have h1 := hfixpre hfx []
              simp only [List.append_nil] at h1
              exact h1
            · exact hfixent hfx
          · have hfx' : fixedB e = false := by
              revert hfx
              cases fixedB e <;> simp
            have hge : goodElem e = true := by
              rcases hgt with h | h
              · exact absurd h hfx
              · exact h
            exact ⟨hvwalkdec hfx' hge false, hvwalkdec hfx' hge true⟩

end Structtools

namespace Structtools

theorem encok_row (cs : List Cont) (g : Bool)
    (IH : ∀ c ∈ cs, ∀ v r, wfv v = true → goodVal c v = true → contData c v = .ok r →
      EncOK c v r)
    (v : Value) (r : PyResult)
    (hwfB : wfB (.row cs g) = true) (hwfv : wfv v = true)
    (hgv : goodVal (.row cs g) v = true)
    (hD : contData (.row cs g) v = .ok r) :
    EncOK (.row cs g) v r := by
  cases v with
  | int i => rw [contData.eq_def] at hD; simp at hD
  | str s => rw [contData.eq_def] at hD; simp at hD
  | dict ps => rw [contData.eq_def] at hD; simp at hD
  | seq vs =>
    rw [contData.eq_def] at hD
    dsimp only at hD
    rw [wfv] at hwfv
    rw [goodVal] at hgv
    simp only [wfB, Bool.and_eq_true] at hwfB
    obtain ⟨hcsne, hwfL⟩ := hwfB
    split at hD
    · exact absurd hD (by simp)
    · cases hM : rowDataGo cs vs with
      | error err => rw [hM, exBind_err] at hD; exact absurd hD (by simp)
      | ok es =>
        rw [hM, exBind_ok] at hD
        injection hD with hr
        subst hr
        obtain ⟨hmap, hF, hdsR⟩ := rowDataGo_facts cs vs es IH hwfv hgv hM
        have hrowdec : goodElemL cs = true → ∀ (b : Bool) (tail : List Nat),
            (b = true → tail = []) →
            ∃ rd, contValue (.row cs g) ((es.map (·.data)).flatten ++ tail) b = .ok rd
              ∧ rd.value = Value.seq vs
              ∧ rd.datasize = (((es.map (·.data)).flatten.length : Nat) : Int) := by
          intro hgeL b tail htl
          have hF2 := forall2_encok_prefix cs es hF hgeL
          have hda : fixedB (.row cs g) = true →
              datasizeAttr (.row cs g) = some (es.map (·.data)).flatten.length := by
            intro hfxr
            simp only [fixedB, Bool.and_eq_true] at hfxr
            show dsRow cs = _
            exact hdsR hfxr.2
          cases b with
          | false =>
            by_cases hfxr : fixedB (.row cs g) = true
            · have htr : trimData (.row cs g) ((es.map (·.data)).flatten ++ tail) false
                  = .ok (es.map (·.data)).flatten := by
                rw [trimData, if_pos hfxr]
                simp only [Bool.false_eq_true, if_false]
                rw [hda hfxr]
                dsimp only [Option.getD_some]
                rw [List.take_left]
              obtain ⟨rds, hwR, hvR, hdR⟩ := rowValueGo_decodeF cs es hF2
                ((es.map (fun q : PyResult => q.data)).flatten) 0 false []
                (le_refl 0) (by rw [pyDropI_zero, List.append_nil]) (by intro h; cases h)
              have hsum : (rds.map (·.datasize)).sum
                  = (((es.map (·.data)).flatten.length : Nat) : Int) := by
                rw [hdR, sum_len_castR]
              refine ⟨⟨.seq (rds.map (·.value)), (es.map (·.data)).flatten,
                (rds.map (·.datasize)).sum, .node (rds.map (·.subsize))⟩, ?_, ?_, hsum⟩
              · rw [contValue.eq_def]
                dsimp only
                rw [htr, exBind_ok, hwR, exBind_ok]
                rw [if_neg (by simp)]
              · show Value.seq (rds.map (·.value)) = Value.seq vs
                rw [hvR, hmap]
            · have htr : trimData (.row cs g) ((es.map (·.data)).flatten ++ tail) false
                  = .ok ((es.map (·.data)).flatten ++ tail) := by
                rw [trimData, if_neg hfxr]
              obtain ⟨rds, hwR, hvR, hdR⟩ := rowValueGo_decodeF cs es hF2
                ((es.map (fun q : PyResult => q.data)).flatten ++ tail) 0 false tail
                (le_refl 0) (by rw [pyDropI_zero]) (by intro h; cases h)
              have hsum : (rds.map (·.datasize)).sum
                  = (((es.map (·.data)).flatten.length : Nat) : Int) := by
                rw [hdR, sum_len_castR]
              refine ⟨⟨.seq (rds.map (·.value)), (es.map (·.data)).flatten ++ tail,
                (rds.map (·.datasize)).sum, .node (rds.map (·.subsize))⟩, ?_, ?_, hsum⟩
              · rw [contValue.eq_def]
                dsimp only
                rw [htr, exBind_ok, hwR, exBind_ok]
                rw [if_neg (by simp)]
              · show Value.seq (rds.map (·.value)) = Value.seq vs
                rw [hvR, hmap]
          | true =>
            have htl' := htl rfl
            subst htl'
            have htr : trimData (.row cs g) ((es.map (·.data)).flatten ++ []) true
                = .ok ((es.map (·.data)).flatten ++ []) := by
              by_cases hfxr : fixedB (.row cs g) = true
              · rw [trimData, if_pos hfxr, if_pos rfl]
                rw [hda hfxr]
                dsimp only [Option.getD_some]
                rw [if_neg (by simp)]
              · rw [trimData, if_neg hfxr]
            obtain ⟨rds, hwR, hvR, hdR⟩ := rowValueGo_decodeF cs es hF2
              ((es.map (fun q : PyResult => q.data)).flatten ++ []) 0 true []
              (le_refl 0) (by rw [pyDropI_zero]) (fun _ => rfl)
            have hsum : (rds.map (·.datasize)).sum
                = (((es.map (·.data)).flatten.length : Nat) : Int) := by
              rw [hdR, sum_len_castR]
            refine ⟨⟨.seq (rds.map (·.value)), (es.map (·.data)).flatten ++ [],
              (rds.map (·.datasize)).sum, .node (rds.map (·.subsize))⟩, ?_, ?_, hsum⟩
            · rw [contValue.eq_def]
              dsimp only
              rw [htr, exBind_ok, hwR, exBind_ok]
              rw [if_neg (by rw [hsum]; simp)]
            · show Value.seq (rds.map (·.value)) = Value.seq vs
              rw [hvR, hmap]
        refine ⟨rfl, rfl, ?_, ?_, ?_, ?_⟩
        · intro hfxr
          simp only [fixedB, Bool.and_eq_true] at hfxr
          show dsRow cs = _
          exact hdsR hfxr.2
        · intro hge hx
          have hx' : (es.map (·.data)).flatten = [] := hx
          cases hF with
          | nil => simp at hcsne
          | cons h1 h2 =>
            rename_i c0 r0 cs' es'
            simp only [goodElem, goodElemL, Bool.and_eq_true] at hge
            have hne0 := h1.2.2.2.1 hge.1
            simp only [List.map_cons, List.flatten_cons] at hx'
            rcases List.append_eq_nil.mp hx' with ⟨h3, -⟩
            exact hne0 h3
        · intro hge
          have hgeL : goodElemL cs = true := by simpa [goodElem] using hge
          intro tail
          exact hrowdec hgeL false tail (by intro h; cases h)
        · intro hgt
          have hgeL : goodElemL cs = true := by simpa [goodTop] using hgt
          constructor
          · have h1 := hrowdec hgeL false [] (by intro h; cases h)
            simp only [List.append_nil] at h1
            exact h1
          · have h2 := hrowdec hgeL true [] (fun _ => rfl)
            simp only [List.append_nil] at h2
            exact h2

end Structtools

namespace Structtools

theorem encok_sd (kc vc : Cont)
    (IHA : ∀ v r, wfv v = true →
      goodVal (.array (.row [kc, vc] false) none) v = true →
      contData (.array (.row [kc, vc] false) none) v = .ok r →
      EncOK (.array (.row [kc, vc] false) none) v r)
    (v : Value) (r : PyResult)
    (hwfv : wfv v = true)
    (hgv : goodVal (.standardDictionary kc vc) v = true)
    (hD : contData (.standardDictionary kc vc) v = .ok r) :
    EncOK (.standardDictionary kc vc) v r := by
  cases v with
  | int i => rw [contData.eq_def] at hD; simp at hD
  | str s => rw [contData.eq_def] at hD; simp at hD
  | seq vs => rw [contData.eq_def] at hD; simp at hD
  | dict ps =>
    rw [contData.eq_def] at hD
    dsimp only at hD
    rw [wfv] at hwfv
    simp only [Bool.and_eq_true] at hwfv
    obtain ⟨hnd, hwfP⟩ := hwfv
    rw [goodVal] at hgv
    cases hA : contData (.array (.row [kc, vc] false) none)
        (.seq (ps.map (fun p => Value.seq [p.1, p.2]))) with
    | error err => rw [hA, exBind_err] at hD; exact absurd hD (by simp)
    | ok rA =>
      rw [hA, exBind_ok] at hD
      injection hD with hr
      subst hr
      have hod : odictOfPairs ps = ps := odictOfPairs_nodup ps hnd
      have hwfvA : wfv (.seq (ps.map (fun p => Value.seq [p.1, p.2]))) = true := by
        rw [wfv]
        exact wfvL_pairSeqs ps hwfP
      have hgvA : goodVal (.array (.row [kc, vc] false) none)
          (.seq (ps.map (fun p => Value.seq [p.1, p.2]))) = true := by
        rw [goodVal]
        exact goodValL_pairSeqs kc vc ps hgv
      have hEA := IHA _ rA hwfvA hgvA hA
      refine ⟨?_, hEA.2.1, ?_, ?_, ?_, ?_⟩
      · show Value.dict (odictOfPairs ps) = Value.dict ps
        rw [hod]
      · intro h
        simp [fixedB, datasizeAttr] at h
      · intro h
        simp [goodElem] at h
      · intro h
        simp [goodElem] at h
      · intro hgt
        simp only [goodTop, Bool.and_eq_true] at hgt
        have hgtA : goodTop (.array (.row [kc, vc] false) none) = true := by
          simp [goodTop, goodElem, goodElemL, hgt.1, hgt.2]
        obtain ⟨hEx, hEn⟩ := hEA.2.2.2.2.2 hgtA
        obtain ⟨rdA, hA2, hval2, hds2⟩ := hEx
        have key : ∀ b : Bool,
            ∃ rd, contValue (.standardDictionary kc vc) rA.data b = .ok rd
              ∧ rd.value = Value.dict ps ∧ rd.datasize = ((rA.data.length : Nat) : Int) := by
          intro b
          refine ⟨⟨.dict (odictOfPairs ps), rdA.data, rdA.datasize, rdA.subsize⟩,
            ?_, ?_, hds2⟩
          · rw [contValue.eq_def]
            dsimp only
            rw [hA2, exBind_ok]
            rw [hval2]
            dsimp only
            rw [toPairs_pairSeqs, exBind_ok]
          · show Value.dict (odictOfPairs ps) = Value.dict ps
            rw [hod]
        exact ⟨key false, key true⟩

end Structtools

namespace Structtools

theorem roundTripAux :
    ∀ N : Nat, ∀ c : Cont, w c ≤ N →
      ∀ v r, wfB c = true → wfv v = true → goodVal c v = true →
        contData c v = .ok r → EncOK c v r := by
  intro N
  induction N with
  | zero =>
    intro c hw
    have := w_pos c
    omega
  | succ N ih =>
    intro c hw v r hwfB hwfv hgv hD
    cases c with
    | integer ic =>
      have hk : 1 ≤ ic.size := by
        simp only [wfB] at hwfB
        by_contra hcon
        have h0 : ic.size = 0 := by omega
        rw [h0] at hwfB
        simp at hwfB
      exact encok_integer ic v r hk hD
    | varSizeString sc =>
      have hk : 1 ≤ sc.size := by
        simp only [wfB] at hwfB
        by_contra hcon
        have h0 : sc.size = 0 := by omega
        rw [h0] at hwfB
        simp at hwfB
      exact encok_vss sc v r hk hD
    | stoppedString stop => exact encok_ss stop v r hgv hD
    | array e n =>
      have hwe : wfB e = true := by
        simp only [wfB, Bool.and_eq_true] at hwfB
        exact hwfB.1
      have hwN : w e ≤ N := by
        simp only [w] at hw
        omega
      exact encok_array e n (fun v' r' h1 h2 h3 => ih e hwN v' r' hwe h1 h2 h3)
        v r hwfB hwfv hgv hD
    | varSizeArray e sc =>
      have hwe : wfB e = true := by
        simp only [wfB, Bool.and_eq_true] at hwfB
        exact hwfB.1
      have hwN : w e ≤ N := by
        simp only [w] at hw
        omega
      exact encok_vsa e sc (fun v' r' h1 h2 h3 => ih e hwN v' r' hwe h1 h2 h3)
        v r hwfB hwfv hgv hD
    | row cs g =>
      have hIH : ∀ c' ∈ cs, ∀ v' r', wfv v' = true → goodVal c' v' = true →
          contData c' v' = .ok r' → EncOK c' v' r' := by
        intro c' hc' v' r' h1 h2 h3
        have hwc' : w c' ≤ N := by
          have h4 := w_le_ws_of_mem c' cs hc'
          simp only [w] at hw
          omega
        have hwf' : wfB c' = true := by
          simp only [wfB, Bool.and_eq_true] at hwfB
          exact wfBL_mem cs c' hwfB.2 hc'
        exact ih c' hwc' v' r' hwf' h1 h2 h3
      exact encok_row cs g hIH v r hwfB hwfv hgv hD
    | standardDictionary kc vc =>
      have hwA : w (.array (.row [kc, vc] false) none) ≤ N := by
        simp only [w, ws] at hw ⊢
        omega
      have hwfA : wfB (.array (.row [kc, vc] false) none) = true := by
        simp only [wfB, Bool.and_eq_true] at hwfB
        simp [wfB, wfBL, hwfB.1, hwfB.2]
      exact encok_sd kc vc
        (fun v' r' h1 h2 h3 => ih _ hwA v' r' hwfA h1 h2 h3)
        v r hwfv hgv hD

end Structtools

namespace Structtools

/-- C1 (counterexample): the codec `Array(StoppedString(b'\x00'))` is
constructible, it encodes the single-element list `["a\x00b"]` into the
bytes `61 00 62 00`, and decoding those bytes back with `is_entire=True`
succeeds but returns `["a", "b"]` instead of the original value: the
embedded terminator makes the decoder split the element early, refuting the
unconditional round-trip claim. -/
theorem C1_entire_roundtrip_counterexample :
    wfB (.array (.stoppedString [0]) none) = true
    ∧ (∃ r, contData (.array (.stoppedString [0]) none)
        (.seq [.str [97, 0, 98]]) = .ok r
        ∧ r.data = [97, 0, 98, 0]
        ∧ (∃ rd, contValue (.array (.stoppedString [0]) none) r.data true = .ok rd
            ∧ rd.value = .seq [.str [97], .str [98]]
            ∧ rd.value ≠ .seq [.str [97, 0, 98]])) := by
  refine ⟨rfl, ⟨⟨.seq [.str [97, 0, 98]], [97, 0, 98, 0], 4,
    .node [.node [.i 3, .i 1]]⟩, ?_, rfl, ⟨⟨.seq [.str [97], .str [98]], [97, 0, 98, 0], 4,
    .node [.node [.i 1, .i 1], .node [.i 1, .i 1]]⟩, ?_, rfl, by simp⟩⟩⟩
  · simp only [contData, exMapM]
    rfl
  · simp only [contValue]
    rfl

end Structtools

namespace Structtools

/-- C1 (corrected): the round-trip law holds for every constructible codec
`c` and well-formed accepted value `v` under the prefix-exactness side
conditions: every combinator element of `c` is prefix-exact (`goodTop`) and
every terminated-string text inside `v` encodes with no early terminator
match (`goodVal`).  Then decoding the encoded bytes with `is_entire=True`
reproduces the value by structural equality, and for dictionaries the
decoded mapping preserves the key insertion order (the decoded value is the
very same ordered pair list). -/
theorem C1_entire_roundtrip_amended (c : Cont) (v : Value) (r : PyResult)
    (hwfB : wfB c = true) (hwfv : wfv v = true)
    (hgt : goodTop c = true) (hgv : goodVal c v = true)
    (hD : contData c v = .ok r) :
    ∃ rd, contValue c r.data true = .ok rd ∧ rd.value = v := by
  have h := roundTripAux (w c) c le_rfl v r hwfB hwfv hgv hD
  obtain ⟨rd, h1, h2, h3⟩ := (h.2.2.2.2.2 hgt).2
  exact ⟨rd, h1, h2⟩

/-- C1 witness: the corrected round-trip law applied to the dictionary codec
`StandardDictionary(Integer(1), Integer(1))` and the one-entry mapping
`{1: 2}`, whose encoding is the two bytes `01 02`. -/
theorem C1_entire_roundtrip_amended_witness :
    wfB (.standardDictionary (.integer ⟨1, false, .lt⟩) (.integer ⟨1, false, .lt⟩)) = true
    ∧ wfv (.dict [(.int 1, .int 2)]) = true
    ∧ goodTop (.standardDictionary (.integer ⟨1, false, .lt⟩)
        (.integer ⟨1, false, .lt⟩)) = true
    ∧ goodVal (.standardDictionary (.integer ⟨1, false, .lt⟩)
        (.integer ⟨1, false, .lt⟩)) (.dict [(.int 1, .int 2)]) = true
    ∧ (∃ rd, contValue (.standardDictionary (.integer ⟨1, false, .lt⟩)
        (.integer ⟨1, false, .lt⟩)) [1, 2] true = .ok rd
        ∧ rd.value = .dict [(.int 1, .int 2)]) :=
  ⟨rfl, rfl, rfl, rfl,
    C1_entire_roundtrip_amended
      (.standardDictionary (.integer ⟨1, false, .lt⟩) (.integer ⟨1, false, .lt⟩))
      (.dict [(.int 1, .int 2)])
      ⟨.dict [(.int 1, .int 2)], [1, 2], 2, .node [.node [.i 1, .i 1]]⟩
      rfl rfl rfl rfl
      (by simp only [contData, exMapM, rowDataGo]; rfl)⟩

end Structtools
